import Mathlib

/-!
Verification of the roxi HTTP multiplexer's routing core.

The definitions below are a shallow embedding of the Go sources
(`tree.go` and the `Mux` dispatch logic of `roxi.go`).  Go byte slices are
modelled as `List Nat` (each element a byte value), Go `nil`-able handler
funcs as `Option Nat` (a handler is identified by a numeric id, `none` is
Go's `nil`), and a Go `panic` arising from out-of-range slice indexing is
modelled as an `Option`/`Except` error result.  The per-request variable
store (`http.Request` path values) is the `Req` structure; a `*http.Request`
that may be `nil` is `Option Req`.

Each Go loop is translated as a function that is structurally recursive on
an explicit `fuel : Nat` argument.  The fuel is the loop's termination
measure; every wrapper supplies enough of it (for the index loops the exact
number of remaining indices, for the tree walks the size of the tree, which
bounds the depth of the walk), so the fuel-exhaustion branches below are
unreachable from the wrappers.  Fuel-sufficiency lemmas are proved where
the general theorems need them.
-/

set_option maxHeartbeats 1000000
set_option maxRecDepth 20000

namespace Roxi

/-- The `/` path separator byte. -/
def slash : Nat := 47

/-- The `:` variable marker byte. -/
def colon : Nat := 58

/-- The `*` wildcard marker byte. -/
def star : Nat := 42

/-- Per-request state: the path-value store written by `SetPathValue`
(most recent binding first) and the matched route pattern. -/
structure Req where
  vals : List (List Nat × List Nat)
  pat : List Nat
deriving DecidableEq, Repr

/-- `SetPathValue` on a request. -/
def Req.setVal (q : Req) (name v : List Nat) : Req :=
  { q with vals := (name, v) :: q.vals }

/-- `SetPathValue` guarded by a `nil` check on the request pointer
(`r != nil` in Go). -/
def setPathValue (r : Option Req) (name v : List Nat) : Option Req :=
  match r with
  | none => none
  | some q => some (q.setVal name v)

/-- The empty request: no bindings, no pattern. -/
def emptyReq : Req := ⟨[], []⟩

/-- `prefixLength` from tree.go: length of the longest common prefix of two
byte strings. -/
def prefixLength : List Nat → List Nat → Nat
  | a :: as, b :: bs => if a = b then prefixLength as bs + 1 else 0
  | _, _ => 0

/-- `countParams` from tree.go: the number of `:`/`*` marker bytes. -/
def countParams (b : List Nat) : Nat :=
  b.countP (fun c => c = colon || c = star)

/-- `checkWildCard` from tree.go.  At every call site `l = b.length` and the
read is guarded by `idx < l`, so `getD`'s default is never consulted. -/
def checkWildCard (b : List Nat) (idx l : Nat) : Bool :=
  if idx ≥ l then false
  else if b.getD idx 0 ≠ star then false
  else true

/-- The scanning loop of `pathSegment` from tree.go: starting at `e`, a `/`
byte ends the segment, a `*` or `:` byte makes it invalid (Go returns
`(nil, -1, false)`, modelled as `none`), and reaching `length` ends the
segment.  The fuel is `length - e`, kept exact by the wrapper, so fuel 0 is
the loop's exit `e ≥ length`.  `length = b.length` at every call site, so
`getD` is in range. -/
def segLoop (b : List Nat) (start : Nat) : Nat → Nat → Option (List Nat × Nat)
  | 0, e => some ((b.drop start).take (e - start), e)
  | fuel + 1, e =>
    if b.getD e 0 = slash then some ((b.drop start).take (e - start), e)
    else if b.getD e 0 = star ∨ b.getD e 0 = colon then none
    else segLoop b start fuel (e + 1)

/-- `pathSegment` from tree.go.  `some (seg, e)` is Go's
`(b[start:end], end, true)`; `none` is Go's `(nil, -1, false)`. -/
def pathSegment (b : List Nat) (start length : Nat) : Option (List Nat × Nat) :=
  if length = 0 ∨ start ≥ length then none
  else segLoop b start (length - start) start

theorem segLoop_le (b : List Nat) (start : Nat) :
    ∀ fuel e seg e2, segLoop b start fuel e = some (seg, e2) → e ≤ e2 := by
  intro fuel
  induction fuel with
  | zero =>
    intro e seg e2 heq
    cases heq
    exact Nat.le_refl _
  | succ fuel ih =>
    intro e seg e2 heq
    rw [segLoop] at heq
    split at heq
    · cases heq; exact Nat.le_refl _
    · split at heq
      · cases heq
      · exact Nat.le_of_succ_le (ih (e + 1) seg e2 heq)

theorem pathSegment_le (b : List Nat) (start length : Nat) (seg e2 : _)
    (h : pathSegment b start length = some (seg, e2)) : start ≤ e2 := by
  rw [pathSegment] at h
  split at h
  · cases h
  · exact segLoop_le b start (length - start) start seg e2 h

/-- The code after `parseParams`' scanning loop in tree.go: the
fully-consumed success return, the wildcard branch (binding the rest of the
path with a leading `/`), and the two heuristic trailing-edge returns.  The
`path[0] == b[0]` read panics (`none`) when either list is empty, and the
`path[j-1] == b[i-1]` read panics when `j-1`/`i-1` is out of range, exactly
as Go's slice indexing does. -/
def ppTail (b path : List Nat) (i j : Nat) (r : Option Req) :
    Option (Nat × Bool × Option Req) :=
  if i = b.length ∧ j = path.length then some (j, true, r)
  else if checkWildCard b i b.length then
    let pn := match pathSegment b (i + 1) b.length with
              | some (p, _) => p
              | none => []
    match r with
    | none => some (j, true, none)
    | some q =>
      if path.length > 0 then
        let q2 := q.setVal pn (slash :: path.drop j)
        if path.length ≠ 0 then some (path.length - 1, true, some q2)
        else some (0, true, some q2)
      else
        let q2 := q.setVal pn [slash]
        if path.length ≠ 0 then some (path.length - 1, true, some q2)
        else some (0, true, some q2)
  else if i = 0 ∨ j = 0 then
    match path.get? 0, b.get? 0 with
    | some p0, some b0 =>
        some (0, decide (p0 = b0) && decide ((path.length : Int) - 1 ≠ 0), r)
    | _, _ => none
  else
    match path.get? (j - 1), b.get? (i - 1) with
    | some pc, some bc =>
        some (j, decide (pc = bc) && decide ((path.length : Int) - 1 ≠ (j : Int) - 1), r)
    | _, _ => none

/-- The scanning loop of `parseParams` from tree.go (`for i < lenB && j <
lenPath`).  The `:` case advances both cursors over one variable token and
one path segment and records the binding; when either `pathSegment` call is
invalid Go continues with a `-1` index, after which every possible
continuation dereferences a negative index and panics, so the model reports
the panic (`none`) immediately.  `i` strictly increases on every iteration,
so the wrapper's fuel `b.length + 1` keeps the fuel-exhaustion branch
unreachable; at exhaustion the loop-exit continuation is taken. -/
def ppScan (b path : List Nat) : Nat → Nat → Nat → Option Req →
    Option (Nat × Bool × Option Req)
  | 0, i, j, r => ppTail b path i j r
  | fuel + 1, i, j, r =>
    if i < b.length ∧ j < path.length then
      if b.getD i 0 = colon then
        match pathSegment b (i + 1) b.length, pathSegment path j path.length with
        | some (pn, e1), some (pv, e2) => ppScan b path fuel e1 e2 (setPathValue r pn pv)
        | _, _ => none
      else if b.getD i 0 = path.getD j 0 then ppScan b path fuel (i + 1) (j + 1) r
      else ppTail b path i j r
    else ppTail b path i j r

/-- `parseParams` from tree.go.  The result is Go's `(lastIdx, ok)` pair
together with the (possibly `nil`) request after its `SetPathValue` calls;
`none` models a Go runtime panic from out-of-range indexing. -/
def parseParams (b path : List Nat) (r : Option Req) :
    Option (Nat × Bool × Option Req) :=
  if path.length = 0 ∧ ¬(checkWildCard b 0 b.length ∨ checkWildCard b 1 b.length) then
    some (0, false, r)
  else ppScan b path (b.length + 1) 0 0 r

/-- Validation errors raised by `validateParams` in tree.go. -/
inductive VErr where
  | badChar
  | missingName
  | wildcardNotLast
  | countMismatch
deriving DecidableEq, Repr

/-- The loop of `validateParams` from tree.go: scan every index, check each
`:`/`*` token, and accumulate the token count.  Fuel is the exact number of
remaining indices `b.length - i`. -/
def vpLoop (b : List Nat) : Nat → Nat → Nat → Except VErr Nat
  | 0, _, count => .ok count
  | fuel + 1, i, count =>
    if b.getD i 0 = colon then
      match pathSegment b (i + 1) b.length with
      | none => .error .badChar
      | some (pn, _) =>
        if pn.length = 0 then .error .missingName
        else vpLoop b fuel (i + 1) (count + 1)
    else if b.getD i 0 = star then
      match pathSegment b (i + 1) b.length with
      | none => .error .badChar
      | some (pn, e) =>
        if pn.length = 0 then .error .missingName
        else if e ≠ b.length then .error .wildcardNotLast
        else vpLoop b fuel (i + 1) (count + 1)
    else vpLoop b fuel (i + 1) count

/-- `validateParams` from tree.go, including the final sanity check of the
token count against `total`. -/
def validateParams (b : List Nat) (total : Nat) : Option VErr :=
  match vpLoop b b.length 0 0 with
  | .error e => some e
  | .ok count => if count ≠ total then some .countMismatch else none

/-!  The radix-tree node (`node` in tree.go) and its edge set. -/

/-- `node` from tree.go: a key fragment, the originating route, the
param/leaf flags, an optional handler (`none` is Go's `nil` `HandlerFunc`),
and the label-keyed child edges. -/
inductive Node where
  | mk (key route : List Nat) (param leaf : Bool) (value : Option Nat)
      (edges : List (Nat × Node))

/-- The `key` field of a node. -/
def Node.key : Node → List Nat
  | .mk k _ _ _ _ _ => k

/-- The `route` field of a node. -/
def Node.route : Node → List Nat
  | .mk _ r _ _ _ _ => r

/-- The `param` flag of a node. -/
def Node.param : Node → Bool
  | .mk _ _ p _ _ _ => p

/-- The `leaf` flag of a node. -/
def Node.leaf : Node → Bool
  | .mk _ _ _ l _ _ => l

/-- The `value` (handler) field of a node. -/
def Node.value : Node → Option Nat
  | .mk _ _ _ _ v _ => v

/-- The `edges` field of a node. -/
def Node.edges : Node → List (Nat × Node)
  | .mk _ _ _ _ _ e => e

/-- The zero node `&node{}` used as a fresh tree root in `Mux.Handle`. -/
def emptyNode : Node := .mk [] [] false false none []

/-- The label read `e[h].label` used by `edges.binarySearch` in tree.go;
in range (`h < e.length`) at every consulted index. -/
def labelAt (e : List (Nat × Node)) (h : Nat) : Nat :=
  ((e.get? h).map Prod.fst).getD 0

/-- The loop of `edges.binarySearch` from tree.go (a copy of
`sort.Search`): find the least index in `[i, j)` whose label is `≥ label`.
The interval shrinks on every iteration, so the wrapper's fuel `n` keeps
the fuel-exhaustion branch unreachable; at exhaustion the loop's exit value
`i` is returned. -/
def bsLoop (e : List (Nat × Node)) (label : Nat) : Nat → Nat → Nat → Nat
  | 0, i, _ => i
  | fuel + 1, i, j =>
    if i < j then
      if ¬ labelAt e ((i + j) / 2) ≥ label then bsLoop e label fuel ((i + j) / 2 + 1) j
      else bsLoop e label fuel i ((i + j) / 2)
    else i

/-- `edges.binarySearch` from tree.go. -/
def binarySearch (e : List (Nat × Node)) (n label : Nat) : Nat :=
  bsLoop e label n 0 n

/-- `edges.get` from tree.go: binary-search lookup of a child by label. -/
def edgesGet (e : List (Nat × Node)) (label : Nat) : Option Node :=
  if 0 < e.length then
    match e.get? (binarySearch e e.length label) with
    | some p => if p.1 = label then some p.2 else none
    | none => none
  else none

/-- `edges.add` from tree.go: insert an edge at its binary-search position. -/
def edgesAdd (e : List (Nat × Node)) (x : Nat × Node) : List (Nat × Node) :=
  e.take (binarySearch e e.length x.1) ++ x :: e.drop (binarySearch e e.length x.1)

/-- In-place mutation of the child node reached through the edge with the
given label (Go mutates through the `*node` pointer returned by
`edges.get`); used only after a successful `edgesGet` on that label. -/
def edgesReplace (e : List (Nat × Node)) (label : Nat) (nd : Node) :
    List (Nat × Node) :=
  e.set (binarySearch e e.length label) (label, nd)

mutual

/-- Computable size of a tree, used as fuel for the walking loops. -/
def Node.size : Node → Nat
  | .mk _ _ _ _ _ es => edgesSize es + 1

/-- Computable size of an edge list. -/
def edgesSize : List (Nat × Node) → Nat
  | [] => 0
  | (_, c) :: rest => Node.size c + edgesSize rest + 1

end

theorem size_snd_lt_of_mem {p : Nat × Node} {e : List (Nat × Node)}
    (h : p ∈ e) : p.2.size < edgesSize e := by
  induction e with
  | nil => cases h
  | cons q rest ih =>
    obtain ⟨a, c⟩ := q
    rw [edgesSize]
    rcases List.mem_cons.mp h with h1 | h1
    · subst h1
      have h2 : (a, c).2 = c := rfl
      rw [h2]
      omega
    · have := ih h1
      omega

theorem size_edgesGet {e : List (Nat × Node)} {label : Nat} {c : Node}
    (h : edgesGet e label = some c) : c.size < edgesSize e := by
  rw [edgesGet] at h
  split at h
  · split at h
    · rename_i p hp
      split at h
      · cases h
        exact size_snd_lt_of_mem (List.get?_mem hp)
      · cases h
    · cases h
  · cases h

theorem Node.size_pos (n : Node) : 0 < n.size := by
  obtain ⟨k, r, p, l, v, e⟩ := n
  rw [Node.size]
  omega

theorem Node.edgesSize_lt (n : Node) : edgesSize n.edges < n.size := by
  obtain ⟨k, r, p, l, v, e⟩ := n
  rw [Node.size, Node.edges]
  omega

/-- Panic modes of the insertion algorithm (`node.insert` in tree.go):
pattern-validation failure, a variable/wildcard registration conflict, a
duplicate registration, and the out-of-range read `key[prefixLen-1]`
that Go would perform when `prefixLen = 0` (`crash` also marks the
unreachable fuel-exhaustion branch). -/
inductive InsErr where
  | validation
  | conflict
  | duplicate
  | crash
deriving DecidableEq, Repr

/-- The node-splitting step of `node.insert` from tree.go: the existing
child is truncated to the shared prefix and demoted (handler and leaf flag
cleared together), the old suffix moves into `splitNode`, and the incoming
suffix either becomes a new leaf edge or, when empty, turns the truncated
node itself into the leaf. -/
def splitChild (child : Node) (key insKeyFull : List Nat) (value : Option Nat)
    (prefixLen : Nat) : Node :=
  let splitNode : Node :=
    .mk (child.key.drop prefixLen) child.route child.param child.leaf
      child.value child.edges
  let baseEdges : List (Nat × Node) :=
    [((child.key.drop prefixLen).headD 0, splitNode)]
  if key.length > prefixLen then
    .mk (child.key.take prefixLen) child.route child.param false none
      (edgesAdd baseEdges (key.getD prefixLen 0,
        .mk (key.drop prefixLen) insKeyFull
          (decide (countParams (key.drop prefixLen) ≠ 0)) true value []))
  else
    .mk (child.key.take prefixLen) insKeyFull child.param true value baseEdges

/-- The walking loop of `node.insert` from tree.go; `params` is
`countParams` of the whole inserted pattern, computed once by `insert`.
The walk strictly descends the tree, so the wrapper's fuel `Node.size t`
bounds its depth and the fuel-exhaustion branch is unreachable. -/
def nodeInsert (insKeyFull : List Nat) (value : Option Nat) (params : Nat) :
    Nat → Node → List Nat → Except InsErr Node
  | 0, _, _ => .error .crash
  | fuel + 1, cur, key =>
    match key with
    | [] =>
      if cur.leaf || cur.value.isSome then .error .duplicate
      else .ok (.mk cur.key cur.route cur.param true value cur.edges)
    | firstChar :: _ =>
      match edgesGet cur.edges firstChar with
      | none =>
        .ok (.mk cur.key cur.route cur.param cur.leaf cur.value
          (edgesAdd cur.edges (firstChar,
            .mk key insKeyFull (decide (countParams key ≠ 0)) true value [])))
      | some child =>
        if prefixLength key child.key = child.key.length then
          match nodeInsert insKeyFull value params fuel child
              (key.drop (prefixLength key child.key)) with
          | .error e => .error e
          | .ok child2 =>
            .ok (.mk cur.key cur.route cur.param cur.leaf cur.value
              (edgesReplace cur.edges firstChar child2))
        else
          if child.param && params ≠ 0 then
            if prefixLength key child.key = 0 then .error .crash
            else
              if (key.getD (prefixLength key child.key - 1) 0 = colon ∧
                    child.key.getD (prefixLength key child.key - 1) 0 = colon) ∨
                 (key.getD (prefixLength key child.key - 1) 0 = star ∧
                    child.key.getD (prefixLength key child.key - 1) 0 = star) then
                .error .conflict
              else
                .ok (.mk cur.key cur.route cur.param cur.leaf cur.value
                  (edgesReplace cur.edges firstChar
                    (splitChild child key insKeyFull value (prefixLength key child.key))))
          else
            .ok (.mk cur.key cur.route cur.param cur.leaf cur.value
              (edgesReplace cur.edges firstChar
                (splitChild child key insKeyFull value (prefixLength key child.key))))

theorem nodeInsert_nil {insKeyFull : List Nat} {value : Option Nat} {params fuel : Nat}
    {cur : Node} :
    nodeInsert insKeyFull value params (fuel + 1) cur [] =
      (if cur.leaf || cur.value.isSome then .error .duplicate
       else .ok (.mk cur.key cur.route cur.param true value cur.edges)) := rfl

theorem nodeInsert_cons_none {insKeyFull : List Nat} {value : Option Nat}
    {params fuel : Nat} {cur : Node} {firstChar : Nat} {rest : List Nat}
    (h : edgesGet cur.edges firstChar = none) :
    nodeInsert insKeyFull value params (fuel + 1) cur (firstChar :: rest) =
      .ok (.mk cur.key cur.route cur.param cur.leaf cur.value
        (edgesAdd cur.edges (firstChar,
          .mk (firstChar :: rest) insKeyFull
            (decide (countParams (firstChar :: rest) ≠ 0)) true value []))) := by
  show (match edgesGet cur.edges firstChar with
    | none =>
      Except.ok (Node.mk cur.key cur.route cur.param cur.leaf cur.value
        (edgesAdd cur.edges (firstChar,
          Node.mk (firstChar :: rest) insKeyFull
            (decide (countParams (firstChar :: rest) ≠ 0)) true value [])))
    | some child =>
      if prefixLength (firstChar :: rest) child.key = child.key.length then
        match nodeInsert insKeyFull value params fuel child
            ((firstChar :: rest).drop (prefixLength (firstChar :: rest) child.key)) with
        | .error e => .error e
        | .ok child2 =>
          .ok (.mk cur.key cur.route cur.param cur.leaf cur.value
            (edgesReplace cur.edges firstChar child2))
      else
        if child.param && params ≠ 0 then
          if prefixLength (firstChar :: rest) child.key = 0 then .error .crash
          else
            if (firstChar :: rest).getD (prefixLength (firstChar :: rest) child.key - 1) 0 = colon ∧
                  child.key.getD (prefixLength (firstChar :: rest) child.key - 1) 0 = colon ∨
               (firstChar :: rest).getD (prefixLength (firstChar :: rest) child.key - 1) 0 = star ∧
                  child.key.getD (prefixLength (firstChar :: rest) child.key - 1) 0 = star then
              .error .conflict
            else
              .ok (.mk cur.key cur.route cur.param cur.leaf cur.value
                (edgesReplace cur.edges firstChar
                  (splitChild child (firstChar :: rest) insKeyFull value
                    (prefixLength (firstChar :: rest) child.key))))
        else
          .ok (.mk cur.key cur.route cur.param cur.leaf cur.value
            (edgesReplace cur.edges firstChar
              (splitChild child (firstChar :: rest) insKeyFull value
                (prefixLength (firstChar :: rest) child.key))))) = _
  rw [h]

theorem nodeInsert_cons_some {insKeyFull : List Nat} {value : Option Nat}
    {params fuel : Nat} {cur child : Node} {firstChar : Nat} {rest : List Nat}
    (h : edgesGet cur.edges firstChar = some child) :
    nodeInsert insKeyFull value params (fuel + 1) cur (firstChar :: rest) =
      (if prefixLength (firstChar :: rest) child.key = child.key.length then
        match nodeInsert insKeyFull value params fuel child
            ((firstChar :: rest).drop (prefixLength (firstChar :: rest) child.key)) with
        | .error e => .error e
        | .ok child2 =>
          .ok (.mk cur.key cur.route cur.param cur.leaf cur.value
            (edgesReplace cur.edges firstChar child2))
      else
        if child.param && params ≠ 0 then
          if prefixLength (firstChar :: rest) child.key = 0 then .error .crash
          else
            if (firstChar :: rest).getD (prefixLength (firstChar :: rest) child.key - 1) 0 = colon ∧
                  child.key.getD (prefixLength (firstChar :: rest) child.key - 1) 0 = colon ∨
               (firstChar :: rest).getD (prefixLength (firstChar :: rest) child.key - 1) 0 = star ∧
                  child.key.getD (prefixLength (firstChar :: rest) child.key - 1) 0 = star then
              .error .conflict
            else
              .ok (.mk cur.key cur.route cur.param cur.leaf cur.value
                (edgesReplace cur.edges firstChar
                  (splitChild child (firstChar :: rest) insKeyFull value
                    (prefixLength (firstChar :: rest) child.key))))
        else
          .ok (.mk cur.key cur.route cur.param cur.leaf cur.value
            (edgesReplace cur.edges firstChar
              (splitChild child (firstChar :: rest) insKeyFull value
                (prefixLength (firstChar :: rest) child.key))))) := by
  show (match edgesGet cur.edges firstChar with
    | none =>
      Except.ok (Node.mk cur.key cur.route cur.param cur.leaf cur.value
        (edgesAdd cur.edges (firstChar,
          Node.mk (firstChar :: rest) insKeyFull
            (decide (countParams (firstChar :: rest) ≠ 0)) true value [])))
    | some child =>
      if prefixLength (firstChar :: rest) child.key = child.key.length then
        match nodeInsert insKeyFull value params fuel child
            ((firstChar :: rest).drop (prefixLength (firstChar :: rest) child.key)) with
        | .error e => .error e
        | .ok child2 =>
          .ok (.mk cur.key cur.route cur.param cur.leaf cur.value
            (edgesReplace cur.edges firstChar child2))
      else
        if child.param && params ≠ 0 then
          if prefixLength (firstChar :: rest) child.key = 0 then .error .crash
          else
            if (firstChar :: rest).getD (prefixLength (firstChar :: rest) child.key - 1) 0 = colon ∧
                  child.key.getD (prefixLength (firstChar :: rest) child.key - 1) 0 = colon ∨
               (firstChar :: rest).getD (prefixLength (firstChar :: rest) child.key - 1) 0 = star ∧
                  child.key.getD (prefixLength (firstChar :: rest) child.key - 1) 0 = star then
              .error .conflict
            else
              .ok (.mk cur.key cur.route cur.param cur.leaf cur.value
                (edgesReplace cur.edges firstChar
                  (splitChild child (firstChar :: rest) insKeyFull value
                    (prefixLength (firstChar :: rest) child.key))))
        else
          .ok (.mk cur.key cur.route cur.param cur.leaf cur.value
            (edgesReplace cur.edges firstChar
              (splitChild child (firstChar :: rest) insKeyFull value
                (prefixLength (firstChar :: rest) child.key))))) = _
  rw [h]

/-- `node.insert` from tree.go: validate the pattern when it contains
markers, then run the walking loop. -/
def insert (t : Node) (key : List Nat) (value : Option Nat) :
    Except InsErr Node :=
  if countParams key ≠ 0 then
    match validateParams key (countParams key) with
    | some _ => .error .validation
    | none => nodeInsert key value (countParams key) (Node.size t) t key
  else nodeInsert key value (countParams key) (Node.size t) t key

/-- The static/variable/wildcard edge fallback at the top of `node.search`'s
loop in tree.go: try the literal byte, then `:`, then `*`. -/
def searchChild (e : List (Nat × Node)) (firstChar : Nat) : Option Node :=
  match edgesGet e firstChar with
  | some c => some c
  | none =>
    match edgesGet e colon with
    | some c => some c
    | none => edgesGet e star

theorem size_searchChild {e : List (Nat × Node)} {fc : Nat} {c : Node}
    (h : searchChild e fc = some c) : c.size < edgesSize e := by
  rw [searchChild] at h
  split at h
  · cases h; exact size_edgesGet (by assumption)
  · split at h
    · cases h; exact size_edgesGet (by assumption)
    · exact size_edgesGet h

/-- The code after `node.search`'s loop in tree.go: the
not-fully-consumed rejection, the `r.Pattern` assignment, and the final
`(value, leaf)` return. -/
def searchTail (cur : Node) (key : List Nat) (r : Option Req) :
    Option Nat × Bool × Option Req :=
  if ¬ cur.param ∧ key.length ≠ 0 then (cur.value, false, r)
  else
    match r with
    | none => (cur.value, cur.leaf, none)
    | some q => (cur.value, cur.leaf, some { q with pat := cur.route })

/-- The walking loop of `node.search` from tree.go.  A `none` result models
a Go runtime panic raised inside `parseParams`.  The walk strictly descends
the tree, so the wrapper's fuel `Node.size t` bounds its depth and the
fuel-exhaustion branch is unreachable. -/
def nodeSearch : Nat → Node → List Nat → Option Req →
    Option (Option Nat × Bool × Option Req)
  | 0, _, _, _ => none
  | fuel + 1, cur, key, r =>
    match key with
    | [] => some (searchTail cur key r)
    | firstChar :: _ =>
      match searchChild cur.edges firstChar with
      | none => some (searchTail cur key r)
      | some child =>
        if key.length ≥ child.key.length ∧
            prefixLength (key.take child.key.length) child.key = child.key.length then
          nodeSearch fuel child (key.drop child.key.length) r
        else
          if child.param then
            match parseParams (child.key.drop (prefixLength key child.key))
                (key.drop (prefixLength key child.key)) r with
            | none => none
            | some (lastIdx, ok, r2) =>
              if ¬ ok then some (cur.value, false, r2)
              else
                if child.edges.length ≠ 0 ∧ lastIdx < key.length then
                  nodeSearch fuel child (key.drop lastIdx) r2
                else some (searchTail child key r2)
          else some (searchTail cur key r)

/-- `node.search` from tree.go. -/
def search (t : Node) (key : List Nat) (r : Option Req) :
    Option (Option Nat × Bool × Option Req) :=
  nodeSearch (Node.size t) t key r

theorem nodeSearch_nil {fuel : Nat} {cur : Node} {r : Option Req} :
    nodeSearch (fuel + 1) cur [] r = some (searchTail cur [] r) := rfl

theorem nodeSearch_cons_none {fuel : Nat} {cur : Node} {firstChar : Nat}
    {rest : List Nat} {r : Option Req}
    (h : searchChild cur.edges firstChar = none) :
    nodeSearch (fuel + 1) cur (firstChar :: rest) r =
      some (searchTail cur (firstChar :: rest) r) := by
  show (match searchChild cur.edges firstChar with
    | none => some (searchTail cur (firstChar :: rest) r)
    | some child =>
      if (firstChar :: rest).length ≥ child.key.length ∧
          prefixLength ((firstChar :: rest).take child.key.length) child.key =
            child.key.length then
        nodeSearch fuel child ((firstChar :: rest).drop child.key.length) r
      else
        if child.param then
          match parseParams (child.key.drop (prefixLength (firstChar :: rest) child.key))
              ((firstChar :: rest).drop (prefixLength (firstChar :: rest) child.key)) r with
          | none => none
          | some (lastIdx, ok, r2) =>
            if ¬ ok then some (cur.value, false, r2)
            else
              if child.edges.length ≠ 0 ∧ lastIdx < (firstChar :: rest).length then
                nodeSearch fuel child ((firstChar :: rest).drop lastIdx) r2
              else some (searchTail child (firstChar :: rest) r2)
        else some (searchTail cur (firstChar :: rest) r)) = _
  rw [h]

theorem nodeSearch_cons_some {fuel : Nat} {cur child : Node} {firstChar : Nat}
    {rest : List Nat} {r : Option Req}
    (h : searchChild cur.edges firstChar = some child) :
    nodeSearch (fuel + 1) cur (firstChar :: rest) r =
      (if (firstChar :: rest).length ≥ child.key.length ∧
          prefixLength ((firstChar :: rest).take child.key.length) child.key =
            child.key.length then
        nodeSearch fuel child ((firstChar :: rest).drop child.key.length) r
      else
        if child.param then
          match parseParams (child.key.drop (prefixLength (firstChar :: rest) child.key))
              ((firstChar :: rest).drop (prefixLength (firstChar :: rest) child.key)) r with
          | none => none
          | some (lastIdx, ok, r2) =>
            if ¬ ok then some (cur.value, false, r2)
            else
              if child.edges.length ≠ 0 ∧ lastIdx < (firstChar :: rest).length then
                nodeSearch fuel child ((firstChar :: rest).drop lastIdx) r2
              else some (searchTail child (firstChar :: rest) r2)
        else some (searchTail cur (firstChar :: rest) r)) := by
  show (match searchChild cur.edges firstChar with
    | none => some (searchTail cur (firstChar :: rest) r)
    | some child =>
      if (firstChar :: rest).length ≥ child.key.length ∧
          prefixLength ((firstChar :: rest).take child.key.length) child.key =
            child.key.length then
        nodeSearch fuel child ((firstChar :: rest).drop child.key.length) r
      else
        if child.param then
          match parseParams (child.key.drop (prefixLength (firstChar :: rest) child.key))
              ((firstChar :: rest).drop (prefixLength (firstChar :: rest) child.key)) r with
          | none => none
          | some (lastIdx, ok, r2) =>
            if ¬ ok then some (cur.value, false, r2)
            else
              if child.edges.length ≠ 0 ∧ lastIdx < (firstChar :: rest).length then
                nodeSearch fuel child ((firstChar :: rest).drop lastIdx) r2
              else some (searchTail child (firstChar :: rest) r2)
        else some (searchTail cur (firstChar :: rest) r)) = _
  rw [h]

/-!  The Mux dispatch policy (`Mux.ServeHTTP` in roxi.go). -/

/-- Routing outcome of one request through `Mux.ServeHTTP`:
dispatch to a handler, a 405 response, a redirect with its status code, a
404 response, the nil-pointer dereference that `root.search` performs when
no tree exists for the method and no other tree matched, or a panic raised
inside a search. -/
inductive Outcome where
  | dispatch (h : Option Nat)
  | notAllowed
  | redirect (p : List Nat) (code : Nat)
  | notFound
  | nilPanic
  | searchPanic
deriving DecidableEq, Repr

/-- Mux configuration and per-method trees (the `trees` map is modelled as
an association list). -/
structure MuxM where
  trees : List (String × Node)
  setAllowHeader : Bool
  redirectTrailingSlash : Bool
  redirectCleanPath : Bool
  routeCaseInsensitive : Bool

/-- Lookup of `m.trees[method]`. -/
def lookupTree : List (String × Node) → String → Option Node
  | [], _ => none
  | (k, t) :: rest, method => if k = method then some t else lookupTree rest method

/-- The method-not-allowed probe of `Mux.ServeHTTP`: search every other
method's tree for the path.  With `setAllowHeader` Go visits all trees and
joins the matching names, without it Go stops at the first hit; either way
the outcome is "some tree matched".  Go's map iteration order is
arbitrary; the model uses the association-list order, which only affects
which tree's bindings reach the request, not the outcome. -/
def anyMatch : List (String × Node) → List Nat → Option Req → Option (Bool × Option Req)
  | [], _, r => some (false, r)
  | (_, t) :: rest, path, r =>
    match search t path r with
    | none => none
    | some (_, true, r2) => some (true, r2)
    | some (_, false, r2) => anyMatch rest path r2

/-- ASCII lower-casing of a byte string (`bytes.ToLower` on ASCII input). -/
def toLowerAscii (p : List Nat) : List Nat :=
  p.map (fun c => if 65 ≤ c ∧ c ≤ 90 then c + 32 else c)

/-- The trailing-slash removal step of `Mux.ServeHTTP`
(`len(path) > 1 && path[len(path)-1] == '/'`). -/
def dropTrailingSlash (p : List Nat) : List Nat :=
  if p.length > 1 ∧ p.getD (p.length - 1) 0 = slash then p.take (p.length - 1)
  else p

/-- The redirect status code of `Mux.ServeHTTP`: 301 for GET, 308 for
every other method ("following the same redirect behavior as httprouter"). -/
def redirectCode (method : String) : Nat :=
  if method = "GET" then 301 else 308

/-- The enabled path transforms of `Mux.ServeHTTP`, in the code's order:
structural path cleaning, trailing-slash removal, lower-casing. -/
def redirectPath (m : MuxM) (cleanPath : List Nat → List Nat)
    (urlPath : List Nat) : List Nat :=
  let path1 := if m.redirectCleanPath then cleanPath urlPath else urlPath
  let path2 := if m.redirectTrailingSlash then dropTrailingSlash path1 else path1
  if m.routeCaseInsensitive then toLowerAscii path2 else path2

/-- The redirect attempt of `Mux.ServeHTTP` (the block guarded by
`r.Method != CONNECT && !bytes.Equal(path, "/")`): apply the enabled
transforms, re-run the search, and redirect on success. -/
def attemptRedirect (m : MuxM) (cleanPath : List Nat → List Nat) (root : Node)
    (method : String) (urlPath : List Nat) (r1 : Option Req) : Outcome :=
  if method ≠ "CONNECT" ∧ urlPath ≠ [slash] then
    if m.redirectCleanPath || m.redirectTrailingSlash || m.routeCaseInsensitive then
      match search root (redirectPath m cleanPath urlPath) r1 with
      | none => .searchPanic
      | some (_, true, _) => .redirect (redirectPath m cleanPath urlPath) (redirectCode method)
      | some (_, false, _) => .notFound
    else .notFound
  else .notFound

/-- The routing decision of `Mux.ServeHTTP` from roxi.go: look up the
method's tree (405/nil-dereference branch when absent), search, dispatch on
success, otherwise attempt the redirect, and fall back to not-found.
`cleanPath` abstracts the `CleanPath` function, whose source file is not
part of this snapshot; the dispatch policy is independent of its
definition. -/
def serveOutcome (m : MuxM) (cleanPath : List Nat → List Nat) (method : String)
    (urlPath : List Nat) (q : Req) : Outcome :=
  match lookupTree m.trees method with
  | none =>
    match anyMatch m.trees urlPath (some q) with
    | none => .searchPanic
    | some (true, _) => .notAllowed
    | some (false, _) => .nilPanic
  | some root =>
    match search root urlPath (some q) with
    | none => .searchPanic
    | some (v, true, _) => .dispatch v
    | some (_, false, r1) => attemptRedirect m cleanPath root method urlPath r1

/-- The nil-handler guard of `Mux.Handle` in roxi.go (`handlerFunc == nil`
panics) in front of the tree insertion. -/
def muxInsert (t : Node) (key : List Nat) (h : Option Nat) : Except InsErr Node :=
  match h with
  | none => .error .crash
  | some hv => insert t key (some hv)

/-- Trees reachable from the fresh root by any sequence of successful
insertions (any handler value, as `node.insert` itself accepts). -/
inductive Reachable : Node → Prop where
  | root : Reachable emptyNode
  | step {t key v t2} : Reachable t → insert t key v = .ok t2 → Reachable t2

/-- Trees reachable through the registration API, which rejects `nil`
handlers: every insertion carries a present handler. -/
inductive HReachable : Node → Prop where
  | root : HReachable emptyNode
  | step {t key h t2} : HReachable t → insert t key (some h) = .ok t2 → HReachable t2


/-- Extract the tree from a successful insertion; the default is never used
in this file, as every use is paired with a proof or check that the
insertion succeeded. -/
def insOk : Except InsErr Node → Node
  | .ok t => t
  | .error _ => emptyNode

/-- Observe only the panic mode of an insertion (`none` means success). -/
def insErr : Except InsErr Node → Option InsErr
  | .ok _ => none
  | .error e => some e

/-!  Concrete routes used by several claims, written as byte literals:
`pAX = "/a/:x"`, `pAY = "/a/:y"`, `pAStatic = "/a/static"`,
`pAzz = "/a/zz"`, `pAcolonq = "/a/:q"`. -/

def pAX : List Nat := [47, 97, 47, 58, 120]

def pAY : List Nat := [47, 97, 47, 58, 121]

def pAStatic : List Nat := [47, 97, 47, 115, 116, 97, 116, 105, 99]

def pAzz : List Nat := [47, 97, 47, 122, 122]

def pAcolonq : List Nat := [47, 97, 47, 58, 113]

/-- Claim C5: registering `/a/:x` and then `/a/:y` on the same tree
(differently-named variables at the same position) fails as a registration
conflict, while registering `/a/:x` and then the literal `/a/static`
succeeds, after which the literal path `/a/static` resolves to the literal
route's handler and a variable instance such as `/a/zz` resolves to the
variable route's handler, each found independently. -/
theorem c5_conflict_and_coexistence :
    insErr (insert emptyNode pAX (some 1)) = none ∧
    insErr (insert (insOk (insert emptyNode pAX (some 1))) pAY (some 2)) =
      some .conflict ∧
    insErr (insert (insOk (insert emptyNode pAX (some 1))) pAStatic (some 2)) =
      none ∧
    (search (insOk (insert (insOk (insert emptyNode pAX (some 1))) pAStatic (some 2)))
        pAStatic (some emptyReq)).map (fun x => (x.1, x.2.1)) =
      some (some 2, true) ∧
    (search (insOk (insert (insOk (insert emptyNode pAX (some 1))) pAStatic (some 2)))
        pAzz (some emptyReq)).map (fun x => (x.1, x.2.1)) =
      some (some 1, true) := by
  refine ⟨by decide, by decide, by decide, by decide, by decide⟩

/-!  `pFooBarBaz = "/foo/:bar/baz"`, `pFooQuuxQux = "/foo/quux/qux"`,
`nBar = "bar"`, `vQuux = "quux"`. -/

def pFooBarBaz : List Nat := [47, 102, 111, 111, 47, 58, 98, 97, 114, 47, 98, 97, 122]

def pFooQuuxQux : List Nat := [47, 102, 111, 111, 47, 113, 117, 117, 120, 47, 113, 117, 120]

/-- Claim C2 (violated by the code): on the tree holding only the route
`/foo/:bar/baz`, searching `/foo/quux/qux` ends on the leaf with the path
cursor not fully consumed and the trailing literal `baz` unmatched (`qux`),
and no wildcard was involved, yet `node.search` returns found = true with
that leaf's handler, binding `bar = quux` — the termination condition the
claim states ("found only on a leaf with the cursor fully consumed, except
via a wildcard") does not hold of the code. -/
theorem c2_partial_match_reported_found :
    insErr (insert emptyNode pFooBarBaz (some 7)) = none ∧
    search (insOk (insert emptyNode pFooBarBaz (some 7))) pFooQuuxQux (some emptyReq) =
      some (some 7, true,
        some ⟨[([98, 97, 114], [113, 117, 117, 120])], pFooBarBaz⟩) := by
  exact ⟨by decide, by decide⟩

/-!  `pUnused = "/unused"`, `pX = "/x"`. -/

def pUnused : List Nat := [47, 117, 110, 117, 115, 101, 100]

def pX : List Nat := [47, 120]

/-- The mux of claim C3's failing input: a single GET tree for `/unused`
and no other trees, no options enabled. -/
def muxC3 : MuxM :=
  ⟨[("GET", insOk (insert emptyNode pUnused (some 1)))], false, false, false, false⟩

/-- Claim C3 (the code crashes where the claim promises not-found): for a
request whose method has no registered tree, the 405 half of the claim
holds (`POST /unused` is answered method-not-allowed because the GET tree
matches), but when no other method's tree matches (`POST /x`) the code
falls through to `root.search` with a nil `root` and dereferences a nil
pointer instead of responding through the not-found handler, so the
routing miss is a crash of request handling. -/
theorem c3_missing_tree_nil_dereference :
    serveOutcome muxC3 id "POST" pUnused emptyReq = .notAllowed ∧
    serveOutcome muxC3 id "POST" pX emptyReq = .nilPanic := by
  exact ⟨by decide, by decide⟩

/-- Claim C1 (refuted as stated): the claim quantifies over every tree and
every non-empty non-slash substitution.  First fact: with `/a/:x` (handler
1) inserted and then `/a/static` (handler 2) inserted without panic,
substituting `static` for `:x` yields `/a/static`, whose search returns the
literal route's handler 2, not pattern `/a/:x`'s handler 1.  Second fact:
even on the tree holding only `/a/:x`, substituting the non-empty
non-slash value `:q` yields `/a/:q`, for which the search returns
found = false and binds nothing. -/
theorem c1_counterexample :
    ((search (insOk (insert (insOk (insert emptyNode pAX (some 1))) pAStatic (some 2)))
        pAStatic (some emptyReq)).map (fun x => (x.1, x.2.1)) =
      some (some 2, true) ∧ (2 : Nat) ≠ 1) ∧
    search (insOk (insert emptyNode pAX (some 1))) pAcolonq (some emptyReq) =
      some (none, false, some emptyReq) := by
  exact ⟨⟨by decide, by decide⟩, by decide⟩

/-!  `pRedirect = "/redirect"`, `pRedirectSlash = "/redirect/"`. -/

def pRedirect : List Nat := [47, 114, 101, 100, 105, 114, 101, 99, 116]

def pRedirectSlash : List Nat := [47, 114, 101, 100, 105, 114, 101, 99, 116, 47]

/-- Claim C4 (refuted as stated for HEAD): with trailing-slash redirection
enabled and a HEAD route `/redirect`, the request `HEAD /redirect/` is
redirected to `/redirect` with status 308, not the 301 the claim assigns to
GET and HEAD alike — the code gives 301 only to GET. -/
theorem c4_counterexample :
    serveOutcome ⟨[("HEAD", insOk (insert emptyNode pRedirect (some 1)))],
        false, true, false, false⟩ id "HEAD" pRedirectSlash emptyReq =
      .redirect pRedirect 308 ∧ (308 : Nat) ≠ 301 := by
  exact ⟨by decide, by decide⟩

/-!  Sortedness of edge sets and correctness of the binary search
(claim C9 and the lemmas the other invariant claims build on). -/

/-- The label sequence of an edge list. -/
def labels (e : List (Nat × Node)) : List Nat := e.map Prod.fst

/-- Strict ordering of the labels of an edge list by the byte order — the
fixed total order in which literal bytes and the `:`/`*` markers are kept. -/
def labelsSorted : List (Nat × Node) → Bool
  | (a, _) :: (b, c) :: rest => decide (a < b) && labelsSorted ((b, c) :: rest)
  | _ => true

theorem labelsSorted_iff_chain {e : List (Nat × Node)} :
    labelsSorted e = true ↔ List.Chain' (· < ·) (labels e) := by
  induction e with
  | nil => simp [labelsSorted, labels]
  | cons p rest ih =>
    obtain ⟨a, c⟩ := p
    cases rest with
    | nil => simp [labelsSorted, labels]
    | cons q rest2 =>
      obtain ⟨b, d⟩ := q
      rw [labelsSorted]
      simp only [labels, List.map_cons] at ih ⊢
      rw [List.chain'_cons, Bool.and_eq_true, decide_eq_true_iff]
      exact and_congr Iff.rfl ih

theorem labelsSorted_iff {e : List (Nat × Node)} :
    labelsSorted e = true ↔ List.Pairwise (· < ·) (labels e) := by
  rw [labelsSorted_iff_chain]
  exact List.chain'_iff_pairwise

theorem labelAt_eq_get {e : List (Nat × Node)} {k : Nat} (h : k < e.length) :
    labelAt e k = (labels e).get ⟨k, by simpa [labels] using h⟩ := by
  rw [labelAt, List.get?_eq_get h]
  simp [labels, List.get_map]

theorem labelAt_mono {e : List (Nat × Node)} (hs : labelsSorted e = true)
    {k m : Nat} (hkm : k ≤ m) (hm : m < e.length) : labelAt e k ≤ labelAt e m := by
  rcases Nat.lt_or_ge k m with h | h
  · have hp := labelsSorted_iff.mp hs
    rw [labelAt_eq_get (Nat.lt_trans h hm), labelAt_eq_get hm]
    have := (List.pairwise_iff_get.mp hp) ⟨k, by simpa [labels] using Nat.lt_trans h hm⟩
      ⟨m, by simpa [labels] using hm⟩ h
    exact Nat.le_of_lt this
  · have : k = m := Nat.le_antisymm hkm h
    subst this
    exact Nat.le_refl _

theorem bsLoop_spec (e : List (Nat × Node)) (label : Nat)
    (mono : ∀ k m, k ≤ m → m < e.length → labelAt e k ≤ labelAt e m) :
    ∀ fuel i j, i ≤ j → j ≤ e.length → j - i ≤ fuel →
      (∀ k, k < i → labelAt e k < label) →
      (∀ k, j ≤ k → k < e.length → label ≤ labelAt e k) →
      i ≤ bsLoop e label fuel i j ∧ bsLoop e label fuel i j ≤ j ∧
      (∀ k, k < bsLoop e label fuel i j → labelAt e k < label) ∧
      (∀ k, bsLoop e label fuel i j ≤ k → k < e.length → label ≤ labelAt e k) := by
  intro fuel
  induction fuel with
  | zero =>
    intro i j hij hje hfuel hlo hhi
    have : i = j := by omega
    subst this
    rw [bsLoop]
    exact ⟨Nat.le_refl _, Nat.le_refl _, hlo, hhi⟩
  | succ fuel ih =>
    intro i j hij hje hfuel hlo hhi
    rw [bsLoop]
    split
    · rename_i hlt
      split
      · rename_i hcond
        have hmid : labelAt e ((i + j) / 2) < label := by omega
        have h1 := ih ((i + j) / 2 + 1) j (by omega) hje (by omega)
          (fun k hk => by
            rcases Nat.lt_or_ge k ((i + j) / 2 + 1) with h2 | h2
            · have : k ≤ (i + j) / 2 := by omega
              have := mono k ((i + j) / 2) this (by omega)
              omega
            · omega)
          hhi
        have h1' := ih ((i + j) / 2 + 1) j (by omega) hje (by omega)
          (fun k hk => by
            have : k ≤ (i + j) / 2 := by omega
            have := mono k ((i + j) / 2) this (by omega)
            omega)
          hhi
        exact ⟨by omega, h1'.2.1, h1'.2.2.1, h1'.2.2.2⟩
      · rename_i hcond
        have hmid : label ≤ labelAt e ((i + j) / 2) := by omega
        have h1 := ih i ((i + j) / 2) (by omega) (by omega) (by omega) hlo
          (fun k hk hke => by
            have := mono ((i + j) / 2) k hk hke
            omega)
        exact ⟨h1.1, by omega, h1.2.2.1, h1.2.2.2⟩
    · rename_i hge
      have : i = j := by omega
      subst this
      exact ⟨Nat.le_refl _, Nat.le_refl _, hlo, hhi⟩

theorem binarySearch_spec {e : List (Nat × Node)} {label : Nat}
    (hs : labelsSorted e = true) :
    binarySearch e e.length label ≤ e.length ∧
    (∀ k, k < binarySearch e e.length label → labelAt e k < label) ∧
    (∀ k, binarySearch e e.length label ≤ k → k < e.length → label ≤ labelAt e k) := by
  have h := bsLoop_spec e label (fun k m hkm hm => labelAt_mono hs hkm hm)
    e.length 0 e.length (Nat.zero_le _) (Nat.le_refl _) (by omega)
    (fun k hk => by omega) (fun k hk hke => by omega)
  exact ⟨h.2.1, h.2.2.1, h.2.2.2⟩

theorem labelAt_eq_getD {e : List (Nat × Node)} {k : Nat} :
    labelAt e k = (labels e).getD k 0 := by
  rw [labelAt, labels, List.getD_eq_getD_get?, List.get?_map]

theorem bsLoop_congr {e e2 : List (Nat × Node)} (h : labels e = labels e2)
    (label : Nat) : ∀ fuel i j, bsLoop e label fuel i j = bsLoop e2 label fuel i j := by
  intro fuel
  induction fuel with
  | zero => intro i j; rfl
  | succ fuel ih =>
    intro i j
    rw [bsLoop, bsLoop]
    have hl : labelAt e ((i + j) / 2) = labelAt e2 ((i + j) / 2) := by
      rw [labelAt_eq_getD, labelAt_eq_getD, h]
    rw [hl]
    by_cases hij : i < j
    · rw [if_pos hij, if_pos hij]
      by_cases hc : ¬ labelAt e2 ((i + j) / 2) ≥ label
      · rw [if_pos hc, if_pos hc]
        exact ih _ _
      · rw [if_neg hc, if_neg hc]
        exact ih _ _
    · rw [if_neg hij, if_neg hij]

theorem edgesGet_mem {e : List (Nat × Node)} {label : Nat} {c : Node}
    (h : edgesGet e label = some c) : (label, c) ∈ e := by
  rw [edgesGet] at h
  split at h
  · split at h
    · rename_i p hp
      split at h
      · rename_i hlab
        cases h
        have := List.get?_mem hp
        obtain ⟨a, nd⟩ := p
        cases hlab
        exact this
      · cases h
    · cases h
  · cases h

theorem edgesGet_isSome_iff {e : List (Nat × Node)} {label : Nat}
    (hs : labelsSorted e = true) :
    (edgesGet e label).isSome = true ↔ label ∈ labels e := by
  constructor
  · intro h
    obtain ⟨c, hc⟩ := Option.isSome_iff_exists.mp h
    have := edgesGet_mem hc
    exact List.mem_map.mpr ⟨(label, c), this, rfl⟩
  · intro h
    obtain ⟨⟨m, hm⟩, hget⟩ := List.mem_iff_get.mp h
    have hmlen : m < e.length := by simpa [labels] using hm
    have hspec : binarySearch e e.length label ≤ e.length ∧
        (∀ k, k < binarySearch e e.length label → labelAt e k < label) ∧
        (∀ k, binarySearch e e.length label ≤ k → k < e.length →
          label ≤ labelAt e k) := binarySearch_spec hs
    have hlam : labelAt e m = label := by
      rw [labelAt_eq_get hmlen]
      exact hget
    have hidxm : binarySearch e e.length label ≤ m := by
      by_contra hcon
      have := hspec.2.1 m (by omega)
      omega
    have hidxlen : binarySearch e e.length label < e.length := by omega
    have hup : label ≤ labelAt e (binarySearch e e.length label) :=
      hspec.2.2 _ (Nat.le_refl _) hidxlen
    have hdown : labelAt e (binarySearch e e.length label) ≤ labelAt e m :=
      labelAt_mono hs hidxm hmlen
    have heq : labelAt e (binarySearch e e.length label) = label := by omega
    rw [edgesGet]
    rw [if_pos (by omega)]
    have hsome : e.get? (binarySearch e e.length label) =
        some (e.get ⟨_, hidxlen⟩) := List.get?_eq_get hidxlen
    have h2 : labelAt e (binarySearch e e.length label) =
        (e.get ⟨binarySearch e e.length label, hidxlen⟩).1 := by
      rw [labelAt, hsome]
      rfl
    have hfst : (e.get ⟨binarySearch e e.length label, hidxlen⟩).1 = label := by
      omega
    rw [hsome]
    simp only [List.get_eq_getElem] at hfst
    simp [hfst]

theorem labels_unique {e : List (Nat × Node)} (hs : labelsSorted e = true)
    {l : Nat} {a b : Node} (ha : (l, a) ∈ e) (hb : (l, b) ∈ e) : a = b := by
  have hp := labelsSorted_iff.mp hs
  obtain ⟨⟨i, hi⟩, hgi⟩ := List.mem_iff_get.mp ha
  obtain ⟨⟨j, hj⟩, hgj⟩ := List.mem_iff_get.mp hb
  have hij : i = j := by
    by_contra hne
    have hgl := List.pairwise_iff_get.mp hp
    rcases Nat.lt_or_ge i j with hlt | hge
    · have := hgl ⟨i, by simpa [labels] using hi⟩ ⟨j, by simpa [labels] using hj⟩ hlt
      simp only [labels, List.get_map, hgi, hgj] at this
      omega
    · have hlt : j < i := by omega
      have := hgl ⟨j, by simpa [labels] using hj⟩ ⟨i, by simpa [labels] using hi⟩ hlt
      simp only [labels, List.get_map, hgi, hgj] at this
      omega
  subst hij
  rw [hgi] at hgj
  cases hgj
  rfl

theorem edgesGet_eq_of_mem {e : List (Nat × Node)} {label : Nat} {c : Node}
    (hs : labelsSorted e = true) (hm : (label, c) ∈ e) :
    edgesGet e label = some c := by
  have h1 : (edgesGet e label).isSome = true :=
    (edgesGet_isSome_iff hs).mpr (List.mem_map.mpr ⟨(label, c), hm, rfl⟩)
  obtain ⟨c2, hc2⟩ := Option.isSome_iff_exists.mp h1
  have := edgesGet_mem hc2
  rw [hc2, labels_unique hs this hm]

theorem edgesGet_none_iff {e : List (Nat × Node)} {label : Nat}
    (hs : labelsSorted e = true) :
    edgesGet e label = none ↔ label ∉ labels e := by
  rw [← edgesGet_isSome_iff hs]
  cases edgesGet e label <;> simp

theorem labels_edgesAdd {e : List (Nat × Node)} {x : Nat × Node} :
    labels (edgesAdd e x) =
      (labels e).take (binarySearch e e.length x.1) ++
        x.1 :: (labels e).drop (binarySearch e e.length x.1) := by
  rw [edgesAdd, labels, List.map_append, List.map_cons, List.map_take, List.map_drop]
  rfl

theorem mem_take_lt {l : List Nat} {n : Nat} {a : Nat} (h : a ∈ l.take n) :
    ∃ i, i < n ∧ i < l.length ∧ l.getD i 0 = a := by
  obtain ⟨i, hi, hgi⟩ := List.mem_iff_getElem.mp h
  refine ⟨i, ?_, ?_, ?_⟩
  · have := List.length_take n l
    omega
  · have := List.length_take n l
    omega
  · rw [List.getElem_take] at hgi
    rw [List.getD_eq_getElem?_getD, List.getElem?_eq_getElem (by
      have := List.length_take n l
      omega)]
    simpa using hgi

theorem mem_drop_ge {l : List Nat} {n : Nat} {a : Nat} (h : a ∈ l.drop n) :
    ∃ i, n ≤ i ∧ i < l.length ∧ l.getD i 0 = a := by
  obtain ⟨i, hi, hgi⟩ := List.mem_iff_getElem.mp h
  rw [List.getElem_drop] at hgi
  have hlen := List.length_drop n l
  refine ⟨n + i, by omega, by omega, ?_⟩
  rw [List.getD_eq_getElem?_getD, List.getElem?_eq_getElem (by omega)]
  simpa using hgi

theorem labelsSorted_edgesAdd {e : List (Nat × Node)} {x : Nat × Node}
    (hs : labelsSorted e = true) (hfresh : x.1 ∉ labels e) :
    labelsSorted (edgesAdd e x) = true := by
  have hp := labelsSorted_iff.mp hs
  have hspec : binarySearch e e.length x.1 ≤ e.length ∧
      (∀ k, k < binarySearch e e.length x.1 → labelAt e k < x.1) ∧
      (∀ k, binarySearch e e.length x.1 ≤ k → k < e.length →
        x.1 ≤ labelAt e k) := binarySearch_spec hs
  rw [labelsSorted_iff, labels_edgesAdd]
  have hlo : ∀ a ∈ (labels e).take (binarySearch e e.length x.1), a < x.1 := by
    intro a ha
    obtain ⟨i, hi1, hi2, hi3⟩ := mem_take_lt ha
    have hilen : i < e.length := by simpa [labels] using hi2
    have := hspec.2.1 i hi1
    rw [labelAt_eq_getD] at this
    omega
  have hhi : ∀ a ∈ (labels e).drop (binarySearch e e.length x.1), x.1 < a := by
    intro a ha
    obtain ⟨i, hi1, hi2, hi3⟩ := mem_drop_ge ha
    have hilen : i < e.length := by simpa [labels] using hi2
    have h2 := hspec.2.2 i hi1 hilen
    rw [labelAt_eq_getD] at h2
    have hne : x.1 ≠ a := by
      intro heq
      apply hfresh
      rw [heq]
      exact List.mem_of_mem_drop ha
    omega
  rw [List.pairwise_append]
  refine ⟨hp.sublist (List.take_sublist _ _), ?_, ?_⟩
  · rw [List.pairwise_cons]
    exact ⟨hhi, hp.sublist (List.drop_sublist _ _)⟩
  · intro a ha b hb
    rcases List.mem_cons.mp hb with h1 | h1
    · subst h1
      exact hlo a ha
    · exact Nat.lt_trans (hlo a ha) (hhi b h1)

theorem mem_edgesAdd {e : List (Nat × Node)} {x p : Nat × Node}
    (h : p ∈ edgesAdd e x) : p ∈ e ∨ p = x := by
  rw [edgesAdd] at h
  rcases List.mem_append.mp h with h1 | h1
  · exact Or.inl (List.mem_of_mem_take h1)
  · rcases List.mem_cons.mp h1 with h2 | h2
    · exact Or.inr h2
    · exact Or.inl (List.mem_of_mem_drop h2)

theorem x_mem_edgesAdd {e : List (Nat × Node)} {x : Nat × Node} :
    x ∈ edgesAdd e x := by
  rw [edgesAdd]
  exact List.mem_append.mpr (Or.inr (List.mem_cons_self _ _))

theorem edgesGet_edgesAdd {e : List (Nat × Node)} {x : Nat × Node}
    (hs : labelsSorted e = true) (hfresh : x.1 ∉ labels e) :
    edgesGet (edgesAdd e x) x.1 = some x.2 :=
  edgesGet_eq_of_mem (labelsSorted_edgesAdd hs hfresh) x_mem_edgesAdd

theorem list_set_self {α : Type} {l : List α} {n : Nat} {a : α}
    (h : l.get? n = some a) : l.set n a = l := by
  induction l generalizing n with
  | nil => cases h
  | cons q rest ih =>
    cases n with
    | zero =>
      cases h
      rfl
    | succ m =>
      show q :: rest.set m a = q :: rest
      rw [ih (by simpa using h)]

theorem edgesGet_idx {e : List (Nat × Node)} {label : Nat} {c : Node}
    (h : edgesGet e label = some c) :
    e.get? (binarySearch e e.length label) = some (label, c) := by
  rw [edgesGet] at h
  split at h
  · split at h
    · rename_i p hp
      split at h
      · rename_i hlab
        cases h
        obtain ⟨a, nd⟩ := p
        cases hlab
        exact hp
      · cases h
    · cases h
  · cases h

theorem labels_edgesReplace {e : List (Nat × Node)} {label : Nat} {nd c : Node}
    (h : edgesGet e label = some c) :
    labels (edgesReplace e label nd) = labels e := by
  rw [edgesReplace, labels, List.map_set]
  have hidx := edgesGet_idx h
  have : (labels e).get? (binarySearch e e.length label) = some label := by
    rw [labels, List.get?_map, hidx]
    rfl
  calc (List.map Prod.fst e).set (binarySearch e e.length label) (label, nd).1
      = (labels e).set (binarySearch e e.length label) label := rfl
    _ = labels e := list_set_self this

theorem edgesGet_edgesReplace {e : List (Nat × Node)} {label : Nat} {nd c : Node}
    (h : edgesGet e label = some c) :
    edgesGet (edgesReplace e label nd) label = some nd := by
  have hlab : labels (edgesReplace e label nd) = labels e := labels_edgesReplace h
  have hidx := edgesGet_idx h
  have hlen : (edgesReplace e label nd).length = e.length := by
    rw [edgesReplace, List.length_set]
  have hbs : binarySearch (edgesReplace e label nd) (edgesReplace e label nd).length label =
      binarySearch e e.length label := by
    rw [hlen, binarySearch, binarySearch, bsLoop_congr hlab.symm label]
  have hidxlt : binarySearch e e.length label < e.length := by
    have := List.get?_eq_some.mp hidx
    obtain ⟨hl, _⟩ := this
    exact hl
  rw [edgesGet, if_pos (by omega), hbs]
  have : (edgesReplace e label nd).get? (binarySearch e e.length label) =
      some (label, nd) := by
    rw [edgesReplace]
    rw [List.get?_set_eq_of_lt]
    exact hidxlt
  rw [this]
  simp

theorem mem_edgesReplace {e : List (Nat × Node)} {label : Nat} {nd : Node}
    {p : Nat × Node} (h : p ∈ edgesReplace e label nd) : p ∈ e ∨ p = (label, nd) := by
  rw [edgesReplace] at h
  exact List.mem_or_eq_of_mem_set h

theorem prefixLength_le_left : ∀ (a b : List Nat), prefixLength a b ≤ a.length := by
  intro a
  induction a with
  | nil => intro b; cases b <;> simp [prefixLength]
  | cons x as ih =>
    intro b
    cases b with
    | nil => simp [prefixLength]
    | cons y bs =>
      rw [prefixLength]
      split
      · have := ih bs
        simp only [List.length_cons]
        omega
      · simp

theorem prefixLength_le_right : ∀ (a b : List Nat), prefixLength a b ≤ b.length := by
  intro a
  induction a with
  | nil => intro b; cases b <;> simp [prefixLength]
  | cons x as ih =>
    intro b
    cases b with
    | nil => simp [prefixLength]
    | cons y bs =>
      rw [prefixLength]
      split
      · have := ih bs
        simp only [List.length_cons]
        omega
      · simp

theorem prefixLength_ne : ∀ (a b : List Nat), prefixLength a b < a.length →
    prefixLength a b < b.length → a.getD (prefixLength a b) 0 ≠ b.getD (prefixLength a b) 0 := by
  intro a
  induction a with
  | nil => intro b h1 _; simp at h1
  | cons x as ih =>
    intro b h1 h2
    cases b with
    | nil => simp at h2
    | cons y bs =>
      rw [prefixLength] at h1 h2 ⊢
      split
      · rename_i heq
        simp only [List.length_cons] at h1 h2
        rw [if_pos heq] at h1 h2
        simpa using ih bs (by omega) (by omega)
      · rename_i hne
        simpa using hne

theorem headD_drop {l : List Nat} {n : Nat} : (l.drop n).headD 0 = l.getD n 0 := by
  induction l generalizing n with
  | nil => cases n <;> rfl
  | cons x xs ih =>
    cases n with
    | zero => rfl
    | succ m => simpa using ih

/-!  The tree-wide sortedness invariant (claim C9). -/

mutual

/-- Every node of the tree keeps its edge list sorted by label. -/
def allSortedB : Node → Bool
  | .mk _ _ _ _ _ es => labelsSorted es && edgesAllSortedB es

/-- `allSortedB` for every child of an edge list. -/
def edgesAllSortedB : List (Nat × Node) → Bool
  | [] => true
  | (_, c) :: rest => allSortedB c && edgesAllSortedB rest

end

theorem edgesAllSortedB_iff {e : List (Nat × Node)} :
    edgesAllSortedB e = true ↔ ∀ p ∈ e, allSortedB p.2 = true := by
  induction e with
  | nil => simp [edgesAllSortedB]
  | cons q rest ih =>
    obtain ⟨a, c⟩ := q
    rw [edgesAllSortedB, Bool.and_eq_true, ih]
    constructor
    · intro h p hp
      rcases List.mem_cons.mp hp with h1 | h1
      · subst h1; exact h.1
      · exact h.2 p h1
    · intro h
      exact ⟨h (a, c) (List.mem_cons_self _ _), fun p hp => h p (List.mem_cons.mpr (Or.inr hp))⟩

theorem allSortedB_mk {k r : List Nat} {pb lb : Bool} {v : Option Nat}
    {es : List (Nat × Node)} :
    allSortedB (.mk k r pb lb v es) = (labelsSorted es && edgesAllSortedB es) := by
  rw [allSortedB]

theorem allSortedB_parts {n : Node} (h : allSortedB n = true) :
    labelsSorted n.edges = true ∧ ∀ p ∈ n.edges, allSortedB p.2 = true := by
  obtain ⟨k, r, pb, lb, v, es⟩ := n
  rw [allSortedB_mk, Bool.and_eq_true] at h
  exact ⟨h.1, edgesAllSortedB_iff.mp h.2⟩

theorem allSortedB_of_parts {n : Node} (h1 : labelsSorted n.edges = true)
    (h2 : ∀ p ∈ n.edges, allSortedB p.2 = true) : allSortedB n = true := by
  obtain ⟨k, r, pb, lb, v, es⟩ := n
  rw [allSortedB_mk, Bool.and_eq_true]
  exact ⟨h1, edgesAllSortedB_iff.mpr h2⟩

theorem allSortedB_leaf {key full : List Nat} {pb : Bool} {v : Option Nat} :
    allSortedB (.mk key full pb true v []) = true := by
  rw [allSortedB_mk]
  rfl

theorem allSortedB_splitChild {child : Node} {key insKeyFull : List Nat}
    {value : Option Nat}
    (hc : allSortedB child = true)
    (hlt : prefixLength key child.key < child.key.length) :
    allSortedB (splitChild child key insKeyFull value (prefixLength key child.key)) = true := by
  have hparts := allSortedB_parts hc
  have hsplit : allSortedB (Node.mk (child.key.drop (prefixLength key child.key))
      child.route child.param child.leaf child.value child.edges) = true := by
    refine allSortedB_of_parts ?_ ?_
    · exact hparts.1
    · exact hparts.2
  have hbase : labelsSorted [((child.key.drop (prefixLength key child.key)).headD 0,
      Node.mk (child.key.drop (prefixLength key child.key)) child.route child.param
        child.leaf child.value child.edges)] = true := rfl
  have hbaseAll : ∀ p ∈ [((child.key.drop (prefixLength key child.key)).headD 0,
      Node.mk (child.key.drop (prefixLength key child.key)) child.route child.param
        child.leaf child.value child.edges)], allSortedB p.2 = true := by
    intro p hp
    rcases List.mem_cons.mp hp with h1 | h1
    · subst h1
      exact hsplit
    · cases h1
  rw [splitChild]
  split
  · rename_i hklen
    have hne : key.getD (prefixLength key child.key) 0 ≠
        (child.key.drop (prefixLength key child.key)).headD 0 := by
      rw [headD_drop]
      exact prefixLength_ne key child.key (by omega) hlt
    have hfresh : (key.getD (prefixLength key child.key) 0,
        Node.mk (key.drop (prefixLength key child.key)) insKeyFull
          (decide (countParams (key.drop (prefixLength key child.key)) ≠ 0)) true value []).1 ∉
        labels [((child.key.drop (prefixLength key child.key)).headD 0,
          Node.mk (child.key.drop (prefixLength key child.key)) child.route child.param
            child.leaf child.value child.edges)] := by
      intro hmem
      rcases List.mem_cons.mp hmem with h1 | h1
      · exact hne h1
      · cases h1
    refine allSortedB_of_parts ?_ ?_
    · show labelsSorted (edgesAdd _ _) = true
      exact labelsSorted_edgesAdd hbase hfresh
    · show ∀ p ∈ edgesAdd _ _, allSortedB p.2 = true
      intro p hp
      rcases mem_edgesAdd hp with h1 | h1
      · exact hbaseAll p h1
      · subst h1
        exact allSortedB_leaf
  · refine allSortedB_of_parts ?_ ?_
    · exact hbase
    · exact hbaseAll

theorem nodeInsert_sorted {insKeyFull : List Nat} {value : Option Nat} {params : Nat} :
    ∀ fuel cur key t2, allSortedB cur = true →
      nodeInsert insKeyFull value params fuel cur key = .ok t2 →
      allSortedB t2 = true := by
  intro fuel
  induction fuel with
  | zero =>
    intro cur key t2 _ hok
    cases hok
  | succ fuel ih =>
    intro cur key t2 hcur hok
    have hparts := allSortedB_parts hcur
    cases key with
    | nil =>
      rw [nodeInsert_nil] at hok
      split at hok
      · cases hok
      · cases hok
        exact allSortedB_of_parts hparts.1 hparts.2
    | cons firstChar rest =>
      cases hget : edgesGet cur.edges firstChar with
      | none =>
        rw [nodeInsert_cons_none hget] at hok
        cases hok
        refine allSortedB_of_parts ?_ ?_
        · show labelsSorted (edgesAdd _ _) = true
          refine labelsSorted_edgesAdd hparts.1 ?_
          exact (edgesGet_none_iff hparts.1).mp hget
        · show ∀ p ∈ edgesAdd _ _, allSortedB p.2 = true
          intro p hp
          rcases mem_edgesAdd hp with h1 | h1
          · exact hparts.2 p h1
          · subst h1
            exact allSortedB_leaf
      | some child =>
        rw [nodeInsert_cons_some hget] at hok
        have hchild : allSortedB child = true :=
          hparts.2 (firstChar, child) (edgesGet_mem hget)
        have hrepl : ∀ nd, allSortedB nd = true →
            allSortedB (Node.mk cur.key cur.route cur.param cur.leaf cur.value
              (edgesReplace cur.edges firstChar nd)) = true := by
          intro nd hnd
          refine allSortedB_of_parts ?_ ?_
          · show labelsSorted (edgesReplace _ _ _) = true
            rw [labelsSorted_iff, labels_edgesReplace hget, ← labelsSorted_iff]
            exact hparts.1
          · show ∀ p ∈ edgesReplace _ _ _, allSortedB p.2 = true
            intro p hp
            rcases mem_edgesReplace hp with h1 | h1
            · exact hparts.2 p h1
            · subst h1
              exact hnd
        split at hok
        · rename_i hfull
          cases hrec : nodeInsert insKeyFull value params fuel child
              ((firstChar :: rest).drop (prefixLength (firstChar :: rest) child.key)) with
          | error e =>
            rw [hrec] at hok
            cases hok
          | ok child2 =>
            rw [hrec] at hok
            cases hok
            exact hrepl child2 (ih child _ child2 hchild hrec)
        · rename_i hnotfull
          have hlt : prefixLength (firstChar :: rest) child.key < child.key.length := by
            have := prefixLength_le_right (firstChar :: rest) child.key
            omega
          split at hok
          · split at hok
            · cases hok
            · split at hok
              · cases hok
              · cases hok
                exact hrepl _ (allSortedB_splitChild hchild hlt)
          · cases hok
            exact hrepl _ (allSortedB_splitChild hchild hlt)

theorem insert_sorted {t : Node} {key : List Nat} {value : Option Nat} {t2 : Node}
    (ht : allSortedB t = true) (hok : insert t key value = .ok t2) :
    allSortedB t2 = true := by
  rw [insert] at hok
  split at hok
  · split at hok
    · cases hok
    · exact nodeInsert_sorted _ t key t2 ht hok
  · exact nodeInsert_sorted _ t key t2 ht hok

theorem reachable_sorted {t : Node} (h : Reachable t) : allSortedB t = true := by
  induction h with
  | root => rfl
  | step _ hok ih => exact insert_sorted ih hok

/-- Claim C9: in every tree reachable by any sequence of insertions, each
node's edge set is sorted strictly by its one-byte label under the byte
order — the fixed total order in which literal bytes and the `:`/`*`
markers are kept — edge insertion of a fresh label preserves sortedness,
and the binary-search lookup finds a child exactly when an edge with that
label is present. -/
theorem c9_sorted_invariant :
    (∀ t, Reachable t → allSortedB t = true) ∧
    (∀ (e : List (Nat × Node)) (x : Nat × Node), labelsSorted e = true →
      x.1 ∉ labels e → labelsSorted (edgesAdd e x) = true) ∧
    (∀ (e : List (Nat × Node)) (label : Nat), labelsSorted e = true →
      ((edgesGet e label).isSome = true ↔ label ∈ labels e)) :=
  ⟨fun _ h => reachable_sorted h,
   fun _ x hs hf => labelsSorted_edgesAdd hs hf,
   fun _ _ hs => edgesGet_isSome_iff hs⟩

/-- Witness for claim C9 at a concrete tree: the tree obtained by
inserting `/a/:x` and then `/a/static` into the fresh root is reachable,
and the theorem yields its sortedness and a concrete lookup fact. -/
theorem c9_sorted_invariant_witness :
    allSortedB (insOk (insert (insOk (insert emptyNode pAX (some 1))) pAStatic (some 2))) = true ∧
    labelsSorted [(58, emptyNode), (115, emptyNode)] = true ∧
    ((edgesGet [(58, emptyNode), (115, emptyNode)] 115).isSome = true ↔
      (115 : Nat) ∈ labels [(58, emptyNode), (115, emptyNode)]) := by
  have h1 : insert emptyNode pAX (some 1) =
      .ok (insOk (insert emptyNode pAX (some 1))) := rfl
  have h2 : insert (insOk (insert emptyNode pAX (some 1))) pAStatic (some 2) =
      .ok (insOk (insert (insOk (insert emptyNode pAX (some 1))) pAStatic (some 2))) := rfl
  refine ⟨c9_sorted_invariant.1 _ (Reachable.step (Reachable.step Reachable.root h1) h2),
    rfl, c9_sorted_invariant.2.2 _ 115 rfl⟩

/-!  The leaf-iff-handler invariant (claim C10). -/

mutual

/-- Every node of the tree is a leaf exactly when it carries a handler. -/
def allLeafValB : Node → Bool
  | .mk _ _ _ lb v es => (lb == v.isSome) && edgesAllLeafValB es

/-- `allLeafValB` for every child of an edge list. -/
def edgesAllLeafValB : List (Nat × Node) → Bool
  | [] => true
  | (_, c) :: rest => allLeafValB c && edgesAllLeafValB rest

end

theorem edgesAllLeafValB_iff {e : List (Nat × Node)} :
    edgesAllLeafValB e = true ↔ ∀ p ∈ e, allLeafValB p.2 = true := by
  induction e with
  | nil => simp [edgesAllLeafValB]
  | cons q rest ih =>
    obtain ⟨a, c⟩ := q
    rw [edgesAllLeafValB, Bool.and_eq_true, ih]
    constructor
    · intro h p hp
      rcases List.mem_cons.mp hp with h1 | h1
      · subst h1; exact h.1
      · exact h.2 p h1
    · intro h
      exact ⟨h (a, c) (List.mem_cons_self _ _), fun p hp => h p (List.mem_cons.mpr (Or.inr hp))⟩

theorem allLeafValB_mk {k r : List Nat} {pb lb : Bool} {v : Option Nat}
    {es : List (Nat × Node)} :
    allLeafValB (.mk k r pb lb v es) = ((lb == v.isSome) && edgesAllLeafValB es) := by
  rw [allLeafValB]

theorem allLeafValB_parts {n : Node} (h : allLeafValB n = true) :
    n.leaf = n.value.isSome ∧ ∀ p ∈ n.edges, allLeafValB p.2 = true := by
  obtain ⟨k, r, pb, lb, v, es⟩ := n
  rw [allLeafValB_mk, Bool.and_eq_true] at h
  exact ⟨by simpa using h.1, edgesAllLeafValB_iff.mp h.2⟩

theorem allLeafValB_of_parts {n : Node} (h1 : n.leaf = n.value.isSome)
    (h2 : ∀ p ∈ n.edges, allLeafValB p.2 = true) : allLeafValB n = true := by
  obtain ⟨k, r, pb, lb, v, es⟩ := n
  rw [allLeafValB_mk, Bool.and_eq_true]
  exact ⟨by simpa using h1, edgesAllLeafValB_iff.mpr h2⟩

theorem allLeafValB_leaf {key full : List Nat} {pb : Bool} {hv : Nat} :
    allLeafValB (.mk key full pb true (some hv) []) = true := rfl

theorem allLeafValB_splitChild {child : Node} {key insKeyFull : List Nat} {hv : Nat}
    (hc : allLeafValB child = true) (pl : Nat) :
    allLeafValB (splitChild child key insKeyFull (some hv) pl) = true := by
  have hparts := allLeafValB_parts hc
  have hsplit : allLeafValB (Node.mk (child.key.drop pl)
      child.route child.param child.leaf child.value child.edges) = true :=
    allLeafValB_of_parts hparts.1 hparts.2
  have hbaseAll : ∀ p ∈ [((child.key.drop pl).headD 0,
      Node.mk (child.key.drop pl) child.route child.param child.leaf child.value
        child.edges)], allLeafValB p.2 = true := by
    intro p hp
    rcases List.mem_cons.mp hp with h1 | h1
    · subst h1
      exact hsplit
    · cases h1
  rw [splitChild]
  split
  · refine allLeafValB_of_parts rfl ?_
    show ∀ p ∈ edgesAdd _ _, allLeafValB p.2 = true
    intro p hp
    rcases mem_edgesAdd hp with h1 | h1
    · exact hbaseAll p h1
    · subst h1
      exact allLeafValB_leaf
  · exact allLeafValB_of_parts rfl hbaseAll

theorem nodeInsert_leafVal {insKeyFull : List Nat} {hv : Nat} {params : Nat} :
    ∀ fuel cur key t2, allLeafValB cur = true →
      nodeInsert insKeyFull (some hv) params fuel cur key = .ok t2 →
      allLeafValB t2 = true := by
  intro fuel
  induction fuel with
  | zero =>
    intro cur key t2 _ hok
    cases hok
  | succ fuel ih =>
    intro cur key t2 hcur hok
    have hparts := allLeafValB_parts hcur
    cases key with
    | nil =>
      rw [nodeInsert_nil] at hok
      split at hok
      · cases hok
      · cases hok
        exact allLeafValB_of_parts rfl hparts.2
    | cons firstChar rest =>
      cases hget : edgesGet cur.edges firstChar with
      | none =>
        rw [nodeInsert_cons_none hget] at hok
        cases hok
        refine allLeafValB_of_parts hparts.1 ?_
        show ∀ p ∈ edgesAdd _ _, allLeafValB p.2 = true
        intro p hp
        rcases mem_edgesAdd hp with h1 | h1
        · exact hparts.2 p h1
        · subst h1
          exact allLeafValB_leaf
      | some child =>
        rw [nodeInsert_cons_some hget] at hok
        have hchild : allLeafValB child = true :=
          hparts.2 (firstChar, child) (edgesGet_mem hget)
        have hrepl : ∀ nd, allLeafValB nd = true →
            allLeafValB (Node.mk cur.key cur.route cur.param cur.leaf cur.value
              (edgesReplace cur.edges firstChar nd)) = true := by
          intro nd hnd
          refine allLeafValB_of_parts hparts.1 ?_
          show ∀ p ∈ edgesReplace _ _ _, allLeafValB p.2 = true
          intro p hp
          rcases mem_edgesReplace hp with h1 | h1
          · exact hparts.2 p h1
          · subst h1
            exact hnd
        split at hok
        · cases hrec : nodeInsert insKeyFull (some hv) params fuel child
              ((firstChar :: rest).drop (prefixLength (firstChar :: rest) child.key)) with
          | error e =>
            rw [hrec] at hok
            cases hok
          | ok child2 =>
            rw [hrec] at hok
            cases hok
            exact hrepl child2 (ih child _ child2 hchild hrec)
        · split at hok
          · split at hok
            · cases hok
            · split at hok
              · cases hok
              · cases hok
                exact hrepl _ (allLeafValB_splitChild hchild _)
          · cases hok
            exact hrepl _ (allLeafValB_splitChild hchild _)

theorem insert_leafVal {t : Node} {key : List Nat} {hv : Nat} {t2 : Node}
    (ht : allLeafValB t = true) (hok : insert t key (some hv) = .ok t2) :
    allLeafValB t2 = true := by
  rw [insert] at hok
  split at hok
  · split at hok
    · cases hok
    · exact nodeInsert_leafVal _ t key t2 ht hok
  · exact nodeInsert_leafVal _ t key t2 ht hok

theorem hreachable_leafVal {t : Node} (h : HReachable t) : allLeafValB t = true := by
  induction h with
  | root => rfl
  | step _ hok ih => exact insert_leafVal ih hok

theorem searchTail_found {cur : Node} {key : List Nat} {r : Option Req}
    {v : Option Nat} {r2 : Option Req}
    (h : searchTail cur key r = (v, true, r2)) : v = cur.value ∧ cur.leaf = true := by
  rw [searchTail.eq_def] at h
  split at h
  · simp at h
  · split at h
    · simp only [Prod.mk.injEq] at h
      exact ⟨h.1.symm, h.2.1⟩
    · simp only [Prod.mk.injEq] at h
      exact ⟨h.1.symm, h.2.1⟩

theorem mem_searchChild {e : List (Nat × Node)} {fc : Nat} {c : Node}
    (h : searchChild e fc = some c) : ∃ l, (l, c) ∈ e := by
  rw [searchChild] at h
  split at h
  · cases h
    exact ⟨fc, edgesGet_mem (by assumption)⟩
  · split at h
    · cases h
      exact ⟨colon, edgesGet_mem (by assumption)⟩
    · exact ⟨star, edgesGet_mem h⟩

theorem nodeSearch_found_isSome :
    ∀ fuel (cur : Node) key r v r2, allLeafValB cur = true →
      nodeSearch fuel cur key r = some (v, true, r2) → v.isSome = true := by
  intro fuel
  induction fuel with
  | zero =>
    intro cur key r v r2 _ hs
    cases hs
  | succ fuel ih =>
    intro cur key r v r2 hcur hs
    have hparts := allLeafValB_parts hcur
    cases key with
    | nil =>
      rw [nodeSearch_nil] at hs
      obtain ⟨hv, hleaf⟩ := searchTail_found (Option.some.inj hs)
      rw [hv, ← hparts.1, hleaf]
    | cons firstChar rest =>
      cases hget : searchChild cur.edges firstChar with
      | none =>
        rw [nodeSearch_cons_none hget] at hs
        obtain ⟨hv, hleaf⟩ := searchTail_found (Option.some.inj hs)
        rw [hv, ← hparts.1, hleaf]
      | some child =>
        rw [nodeSearch_cons_some hget] at hs
        have hchild : allLeafValB child = true := by
          obtain ⟨l, hl⟩ := mem_searchChild hget
          exact hparts.2 _ hl
        have hchildparts := allLeafValB_parts hchild
        split at hs
        · exact ih child _ r v r2 hchild hs
        · split at hs
          · split at hs
            · cases hs
            · split at hs
              · simp at hs
              · split at hs
                · exact ih child _ _ v r2 hchild hs
                · obtain ⟨hv, hleaf⟩ := searchTail_found (Option.some.inj hs)
                  rw [hv, ← hchildparts.1, hleaf]
          · obtain ⟨hv, hleaf⟩ := searchTail_found (Option.some.inj hs)
            rw [hv, ← hparts.1, hleaf]

theorem lookupTree_mem :
    ∀ (l : List (String × Node)) (m : String) (t : Node),
      lookupTree l m = some t → ∃ k, (k, t) ∈ l := by
  intro l
  induction l with
  | nil =>
    intro m t h
    cases h
  | cons p rest ih =>
    intro m t h
    obtain ⟨k2, t2⟩ := p
    rw [lookupTree] at h
    split at h
    · cases h
      exact ⟨k2, List.mem_cons_self _ _⟩
    · obtain ⟨k, hk⟩ := ih m t h
      exact ⟨k, List.mem_cons.mpr (Or.inr hk)⟩

theorem attemptRedirect_ne_dispatch {m : MuxM} {cp : List Nat → List Nat}
    {root : Node} {method : String} {urlPath : List Nat} {r1 : Option Req}
    {h : Option Nat} : attemptRedirect m cp root method urlPath r1 ≠ .dispatch h := by
  intro hc
  rw [attemptRedirect] at hc
  split at hc
  · split at hc
    · split at hc <;> cases hc
    · cases hc
  · cases hc

/-- Claim C10: trees built through the registration API (which rejects
`nil` handlers) satisfy the invariant that a node is a leaf exactly when it
carries a handler (node splitting clears the handler and the leaf flag
together, so the invariant survives every insertion); consequently a search
that reports found = true always carries a present handler, and `ServeHTTP`
never dispatches a `nil` handler. -/
theorem c10_leaf_iff_handler :
    (∀ t, HReachable t → allLeafValB t = true) ∧
    (∀ t key r v b r2, allLeafValB t = true →
      search t key r = some (v, b, r2) → b = true → v.isSome = true) ∧
    (∀ (m : MuxM) (cp : List Nat → List Nat) (method : String) (path : List Nat)
        (q : Req) (h : Option Nat),
      (∀ p ∈ m.trees, HReachable p.2) →
      serveOutcome m cp method path q = .dispatch h → h.isSome = true) := by
  refine ⟨fun t ht => hreachable_leafVal ht, ?_, ?_⟩
  · intro t key r v b r2 ht hs hb
    subst hb
    exact nodeSearch_found_isSome (Node.size t) t key r v r2 ht hs
  · intro m cp method path q h htrees hout
    rw [serveOutcome] at hout
    split at hout
    · split at hout
      · cases hout
      · cases hout
      · cases hout
    · rename_i root hlook
      split at hout
      · cases hout
      · rename_i v r1 hsearch
        cases hout
        obtain ⟨k, hk⟩ := lookupTree_mem m.trees method root hlook
        have hroot : allLeafValB root = true := hreachable_leafVal (htrees (k, root) hk)
        exact nodeSearch_found_isSome (Node.size root) root path (some q) h r1 hroot hsearch
      · exact absurd hout attemptRedirect_ne_dispatch

/-- Witness for claim C10 at a concrete tree: the two-route tree of
`/a/:x` and `/a/static` built with present handlers satisfies the
invariant, and a found search result there carries a present handler. -/
theorem c10_leaf_iff_handler_witness :
    allLeafValB (insOk (insert (insOk (insert emptyNode pAX (some 1))) pAStatic (some 2))) = true ∧
    (Option.some 2).isSome = true := by
  have h1 : insert emptyNode pAX (some 1) =
      .ok (insOk (insert emptyNode pAX (some 1))) := rfl
  have h2 : insert (insOk (insert emptyNode pAX (some 1))) pAStatic (some 2) =
      .ok (insOk (insert (insOk (insert emptyNode pAX (some 1))) pAStatic (some 2))) := rfl
  have hre : HReachable (insOk (insert (insOk (insert emptyNode pAX (some 1))) pAStatic (some 2))) :=
    HReachable.step (HReachable.step HReachable.root h1) h2
  refine ⟨c10_leaf_iff_handler.1 _ hre, ?_⟩
  refine c10_leaf_iff_handler.2.1 _ pAStatic (some emptyReq) (some 2) true
    (some ⟨[], pAStatic⟩) (c10_leaf_iff_handler.1 _ hre) rfl rfl

/-!  Re-registration of an identical pattern (claim C7). -/

theorem prefixLength_self : ∀ (l : List Nat), prefixLength l l = l.length := by
  intro l
  induction l with
  | nil => rfl
  | cons x xs ih =>
    rw [prefixLength, if_pos rfl, ih]
    rfl

theorem prefixLength_of_prefix : ∀ (c a : List Nat), c <+: a →
    prefixLength a c = c.length := by
  intro c
  induction c with
  | nil =>
    intro a _
    cases a <;> rfl
  | cons x cs ih =>
    intro a hpre
    obtain ⟨rest, hrest⟩ := hpre
    subst hrest
    rw [List.cons_append, prefixLength, if_pos rfl, ih (cs ++ rest) ⟨rest, rfl⟩]
    rfl

theorem prefixLength_take_eq : ∀ (a b : List Nat),
    a.take (prefixLength a b) = b.take (prefixLength a b) := by
  intro a
  induction a with
  | nil => intro b; cases b <;> rfl
  | cons x as ih =>
    intro b
    cases b with
    | nil => rfl
    | cons y bs =>
      rw [prefixLength]
      split
      · rename_i heq
        subst heq
        rw [List.take_cons, List.take_cons]
        · simp only [Nat.add_sub_cancel]
          rw [ih bs]
        · omega
        · omega
      · rfl

theorem nodeInsert_key {insKeyFull : List Nat} {value : Option Nat} {params : Nat} :
    ∀ fuel cur key t2,
      nodeInsert insKeyFull value params fuel cur key = .ok t2 → t2.key = cur.key := by
  intro fuel
  cases fuel with
  | zero =>
    intro cur key t2 hok
    cases hok
  | succ fuel =>
    intro cur key t2 hok
    cases key with
    | nil =>
      rw [nodeInsert_nil] at hok
      split at hok
      · cases hok
      · cases hok
        rfl
    | cons firstChar rest =>
      cases hget : edgesGet cur.edges firstChar with
      | none =>
        rw [nodeInsert_cons_none hget] at hok
        cases hok
        rfl
      | some child =>
        rw [nodeInsert_cons_some hget] at hok
        split at hok
        · split at hok
          · cases hok
          · rename_i child2 _
            cases hok
            rfl
        · split at hok
          · split at hok
            · cases hok
            · split at hok
              · cases hok
              · cases hok
                rfl
          · cases hok
            rfl

theorem splitChild_lt {child : Node} {key insKeyFull : List Nat} {value : Option Nat}
    {prefixLen : Nat} (h : key.length > prefixLen) :
    splitChild child key insKeyFull value prefixLen =
      Node.mk (child.key.take prefixLen) child.route child.param false none
        (edgesAdd [((child.key.drop prefixLen).headD 0,
          Node.mk (child.key.drop prefixLen) child.route child.param child.leaf
            child.value child.edges)]
          (key.getD prefixLen 0,
            Node.mk (key.drop prefixLen) insKeyFull
              (decide (countParams (key.drop prefixLen) ≠ 0)) true value [])) := by
  simp only [splitChild]
  rw [if_pos h]

theorem splitChild_ge {child : Node} {key insKeyFull : List Nat} {value : Option Nat}
    {prefixLen : Nat} (h : ¬ key.length > prefixLen) :
    splitChild child key insKeyFull value prefixLen =
      Node.mk (child.key.take prefixLen) insKeyFull child.param true value
        [((child.key.drop prefixLen).headD 0,
          Node.mk (child.key.drop prefixLen) child.route child.param child.leaf
            child.value child.edges)] := by
  simp only [splitChild]
  rw [if_neg h]

theorem node_size_succ {t2 : Node} {fuel2 : Nat} (h : Node.size t2 ≤ fuel2) :
    ∃ f, fuel2 = f + 1 := by
  have := t2.size_pos
  cases fuel2
  · omega
  · exact ⟨_, rfl⟩

theorem nodeInsert_dup {insKeyFull : List Nat} {value : Option Nat} {params : Nat}
    {full2 : List Nat} {v2 : Option Nat} {params2 : Nat} :
    ∀ fuel cur key t2, allSortedB cur = true →
      nodeInsert insKeyFull value params fuel cur key = .ok t2 →
      ∀ fuel2, Node.size t2 ≤ fuel2 →
        nodeInsert full2 v2 params2 fuel2 t2 key = .error .duplicate := by
  intro fuel
  induction fuel with
  | zero =>
    intro cur key t2 _ hok
    cases hok
  | succ fuel ih =>
    intro cur key t2 hcur hok fuel2 hfuel2
    obtain ⟨f, hf⟩ := node_size_succ hfuel2
    subst hf
    have hparts := allSortedB_parts hcur
    cases key with
    | nil =>
      rw [nodeInsert_nil] at hok
      split at hok
      · cases hok
      · cases hok
        rfl
    | cons firstChar rest =>
      cases hget : edgesGet cur.edges firstChar with
      | none =>
        rw [nodeInsert_cons_none hget] at hok
        cases hok
        rw [Node.size] at hfuel2
        have hfresh : firstChar ∉ labels cur.edges := (edgesGet_none_iff hparts.1).mp hget
        have hget2 : edgesGet
            (Node.mk cur.key cur.route cur.param cur.leaf cur.value
              (edgesAdd cur.edges (firstChar,
                Node.mk (firstChar :: rest) insKeyFull
                  (decide (countParams (firstChar :: rest) ≠ 0)) true value []))).edges
            firstChar = some (Node.mk (firstChar :: rest) insKeyFull
              (decide (countParams (firstChar :: rest) ≠ 0)) true value []) :=
          edgesGet_edgesAdd hparts.1 hfresh
        rw [nodeInsert_cons_some hget2]
        rw [if_pos (by
          show prefixLength (firstChar :: rest) (firstChar :: rest) = (firstChar :: rest).length
          exact prefixLength_self _)]
        have hNLsz : Node.size (Node.mk (firstChar :: rest) insKeyFull
            (decide (countParams (firstChar :: rest) ≠ 0)) true value []) <
            edgesSize (edgesAdd cur.edges (firstChar,
              Node.mk (firstChar :: rest) insKeyFull
                (decide (countParams (firstChar :: rest) ≠ 0)) true value [])) := by
          exact size_snd_lt_of_mem (p := (firstChar, _)) x_mem_edgesAdd
        have hNLle : Node.size (Node.mk (firstChar :: rest) insKeyFull
            (decide (countParams (firstChar :: rest) ≠ 0)) true value []) ≤ f := by
          omega
        obtain ⟨f2, hf2⟩ := node_size_succ hNLle
        subst hf2
        have hdrop : (firstChar :: rest).drop
            (prefixLength (firstChar :: rest)
              (Node.mk (firstChar :: rest) insKeyFull
                (decide (countParams (firstChar :: rest) ≠ 0)) true value []).key) = [] := by
          show (firstChar :: rest).drop (prefixLength (firstChar :: rest) (firstChar :: rest)) = []
          rw [prefixLength_self]
          exact List.drop_length _
        rw [hdrop]
        rfl
      | some child =>
        rw [nodeInsert_cons_some hget] at hok
        have hchild : allSortedB child = true :=
          hparts.2 (firstChar, child) (edgesGet_mem hget)
        split at hok
        · rename_i hfull
          cases hrec : nodeInsert insKeyFull value params fuel child
              ((firstChar :: rest).drop (prefixLength (firstChar :: rest) child.key)) with
          | error e =>
            rw [hrec] at hok
            cases hok
          | ok child2 =>
            rw [hrec] at hok
            cases hok
            rw [Node.size] at hfuel2
            have hget2 : edgesGet
                (Node.mk cur.key cur.route cur.param cur.leaf cur.value
                  (edgesReplace cur.edges firstChar child2)).edges firstChar = some child2 :=
              edgesGet_edgesReplace hget
            rw [nodeInsert_cons_some hget2]
            have hkey2 : child2.key = child.key :=
              nodeInsert_key fuel child _ child2 hrec
            rw [if_pos (by rw [hkey2]; exact hfull)]
            have hsz : Node.size child2 ≤ f := by
              have h1 : Node.size child2 <
                  edgesSize (edgesReplace cur.edges firstChar child2) :=
                size_snd_lt_of_mem (p := (firstChar, child2))
                  (edgesGet_mem (edgesGet_edgesReplace hget))
              omega
            have hdup := ih child _ child2 hchild hrec f hsz
            rw [hkey2, hdup]
        · rename_i hnotfull
          have hpll : prefixLength (firstChar :: rest) child.key ≤ (firstChar :: rest).length :=
            prefixLength_le_left _ _
          have hplc : prefixLength (firstChar :: rest) child.key < child.key.length := by
            have := prefixLength_le_right (firstChar :: rest) child.key
            omega
          have ht2 : t2 = Node.mk cur.key cur.route cur.param cur.leaf cur.value
              (edgesReplace cur.edges firstChar
                (splitChild child (firstChar :: rest) insKeyFull value
                    (prefixLength (firstChar :: rest) child.key))) := by
            split at hok
            · split at hok
              · cases hok
              · split at hok
                · cases hok
                · cases hok
                  rfl
            · cases hok
              rfl
          subst ht2
          rw [Node.size] at hfuel2
          have hSCmem : (firstChar, splitChild child (firstChar :: rest) insKeyFull value
                  (prefixLength (firstChar :: rest) child.key)) ∈
              edgesReplace cur.edges firstChar
                (splitChild child (firstChar :: rest) insKeyFull value
                    (prefixLength (firstChar :: rest) child.key)) :=
            edgesGet_mem (edgesGet_edgesReplace hget)
          have hSCsz : Node.size (splitChild child (firstChar :: rest) insKeyFull value
                  (prefixLength (firstChar :: rest) child.key)) ≤ f := by
            have h1 : Node.size (splitChild child (firstChar :: rest) insKeyFull value
                  (prefixLength (firstChar :: rest) child.key)) <
                edgesSize (edgesReplace cur.edges firstChar
                  (splitChild child (firstChar :: rest) insKeyFull value
                    (prefixLength (firstChar :: rest) child.key))) :=
              size_snd_lt_of_mem hSCmem
            omega
          obtain ⟨f1, hf1⟩ := node_size_succ hSCsz
          subst hf1
          have hget2 : edgesGet (Node.mk cur.key cur.route cur.param cur.leaf cur.value
              (edgesReplace cur.edges firstChar
                (splitChild child (firstChar :: rest) insKeyFull value
                    (prefixLength (firstChar :: rest) child.key)))).edges firstChar =
              some (splitChild child (firstChar :: rest) insKeyFull value
                  (prefixLength (firstChar :: rest) child.key)) :=
            edgesGet_edgesReplace hget
          rw [nodeInsert_cons_some hget2]
          have htake : (firstChar :: rest).take (prefixLength (firstChar :: rest) child.key) =
              child.key.take (prefixLength (firstChar :: rest) child.key) :=
            prefixLength_take_eq (firstChar :: rest) child.key
          rcases Nat.lt_or_ge (prefixLength (firstChar :: rest) child.key)
              (firstChar :: rest).length with hkl | hkl
          · have hSCdef : splitChild child (firstChar :: rest) insKeyFull value
                (prefixLength (firstChar :: rest) child.key) =
                Node.mk (child.key.take (prefixLength (firstChar :: rest) child.key))
                  child.route child.param false none
                  (edgesAdd [((child.key.drop (prefixLength (firstChar :: rest) child.key)).headD 0,
                    Node.mk (child.key.drop (prefixLength (firstChar :: rest) child.key))
                      child.route child.param child.leaf child.value child.edges)]
                    (((firstChar :: rest).getD (prefixLength (firstChar :: rest) child.key) 0),
                      Node.mk ((firstChar :: rest).drop (prefixLength (firstChar :: rest) child.key))
                        insKeyFull
                        (decide (countParams ((firstChar :: rest).drop
                          (prefixLength (firstChar :: rest) child.key)) ≠ 0)) true value [])) :=
              splitChild_lt (by omega)
            have hplen : prefixLength (firstChar :: rest)
                (splitChild child (firstChar :: rest) insKeyFull value
                  (prefixLength (firstChar :: rest) child.key)).key =
                (splitChild child (firstChar :: rest) insKeyFull value
                  (prefixLength (firstChar :: rest) child.key)).key.length := by
              rw [hSCdef]
              show prefixLength (firstChar :: rest)
                  (child.key.take (prefixLength (firstChar :: rest) child.key)) =
                (child.key.take (prefixLength (firstChar :: rest) child.key)).length
              rw [← htake]
              exact prefixLength_of_prefix _ _ (List.take_prefix _ _)
            rw [if_pos hplen]
            have hSCkeylen : (splitChild child (firstChar :: rest) insKeyFull value
                  (prefixLength (firstChar :: rest) child.key)).key.length =
                prefixLength (firstChar :: rest) child.key := by
              rw [hSCdef]
              show (child.key.take (prefixLength (firstChar :: rest) child.key)).length = _
              rw [List.length_take]
              omega
            rw [hplen, hSCkeylen]
            have hdropcons : (firstChar :: rest).drop (prefixLength (firstChar :: rest) child.key) =
                ((firstChar :: rest).getD (prefixLength (firstChar :: rest) child.key) 0) ::
                  ((firstChar :: rest).drop (prefixLength (firstChar :: rest) child.key + 1)) := by
              rw [List.getD_eq_getElem?_getD, List.getElem?_eq_getElem hkl]
              simpa using List.drop_eq_getElem_cons hkl
            have hlvl2 : nodeInsert full2 v2 params2 (f1 + 1)
                (splitChild child (firstChar :: rest) insKeyFull value
                  (prefixLength (firstChar :: rest) child.key))
                ((firstChar :: rest).drop (prefixLength (firstChar :: rest) child.key)) =
                .error .duplicate := by
              rw [hSCdef, hdropcons]
              have hfresh2 : ((firstChar :: rest).getD (prefixLength (firstChar :: rest) child.key) 0) ∉
                  labels [((child.key.drop (prefixLength (firstChar :: rest) child.key)).headD 0,
                    Node.mk (child.key.drop (prefixLength (firstChar :: rest) child.key))
                      child.route child.param child.leaf child.value child.edges)] := by
                intro hmem
                simp only [labels, List.map] at hmem
                have h1 := List.mem_singleton.mp hmem
                rw [headD_drop] at h1
                exact prefixLength_ne (firstChar :: rest) child.key hkl hplc h1
              have hget3 : edgesGet (Node.mk (child.key.take (prefixLength (firstChar :: rest) child.key))
                  child.route child.param false none
                  (edgesAdd [((child.key.drop (prefixLength (firstChar :: rest) child.key)).headD 0,
                    Node.mk (child.key.drop (prefixLength (firstChar :: rest) child.key))
                      child.route child.param child.leaf child.value child.edges)]
                    (((firstChar :: rest).getD (prefixLength (firstChar :: rest) child.key) 0),
                      Node.mk (((firstChar :: rest).getD (prefixLength (firstChar :: rest) child.key) 0) ::
                      ((firstChar :: rest).drop (prefixLength (firstChar :: rest) child.key + 1))) insKeyFull
                      (decide (countParams (((firstChar :: rest).getD (prefixLength (firstChar :: rest) child.key) 0) ::
                        ((firstChar :: rest).drop (prefixLength (firstChar :: rest) child.key + 1))) ≠ 0)) true value []))).edges
                  ((firstChar :: rest).getD (prefixLength (firstChar :: rest) child.key) 0) =
                  some (Node.mk (((firstChar :: rest).getD (prefixLength (firstChar :: rest) child.key) 0) ::
                      ((firstChar :: rest).drop (prefixLength (firstChar :: rest) child.key + 1))) insKeyFull
                      (decide (countParams (((firstChar :: rest).getD (prefixLength (firstChar :: rest) child.key) 0) ::
                        ((firstChar :: rest).drop (prefixLength (firstChar :: rest) child.key + 1))) ≠ 0)) true value []) :=
                edgesGet_edgesAdd rfl hfresh2
              rw [nodeInsert_cons_some hget3]
              have hplen2 : prefixLength (((firstChar :: rest).getD (prefixLength (firstChar :: rest) child.key) 0) ::
                  ((firstChar :: rest).drop (prefixLength (firstChar :: rest) child.key + 1)))
                  (Node.mk (((firstChar :: rest).getD (prefixLength (firstChar :: rest) child.key) 0) ::
                      ((firstChar :: rest).drop (prefixLength (firstChar :: rest) child.key + 1))) insKeyFull
                      (decide (countParams (((firstChar :: rest).getD (prefixLength (firstChar :: rest) child.key) 0) ::
                        ((firstChar :: rest).drop (prefixLength (firstChar :: rest) child.key + 1))) ≠ 0)) true value []).key =
                  (Node.mk (((firstChar :: rest).getD (prefixLength (firstChar :: rest) child.key) 0) ::
                      ((firstChar :: rest).drop (prefixLength (firstChar :: rest) child.key + 1))) insKeyFull
                      (decide (countParams (((firstChar :: rest).getD (prefixLength (firstChar :: rest) child.key) 0) ::
                        ((firstChar :: rest).drop (prefixLength (firstChar :: rest) child.key + 1))) ≠ 0)) true value []).key.length := by
                show prefixLength (((firstChar :: rest).getD (prefixLength (firstChar :: rest) child.key) 0) ::
                    ((firstChar :: rest).drop (prefixLength (firstChar :: rest) child.key + 1)))
                  (((firstChar :: rest).getD (prefixLength (firstChar :: rest) child.key) 0) ::
                    ((firstChar :: rest).drop (prefixLength (firstChar :: rest) child.key + 1))) =
                  (((firstChar :: rest).getD (prefixLength (firstChar :: rest) child.key) 0) ::
                    ((firstChar :: rest).drop (prefixLength (firstChar :: rest) child.key + 1))).length
                exact prefixLength_self _
              rw [if_pos hplen2]
              have hsz1 : Node.size (Node.mk (child.key.take (prefixLength (firstChar :: rest) child.key))
                  child.route child.param false none
                  (edgesAdd [((child.key.drop (prefixLength (firstChar :: rest) child.key)).headD 0,
                    Node.mk (child.key.drop (prefixLength (firstChar :: rest) child.key))
                      child.route child.param child.leaf child.value child.edges)]
                    (((firstChar :: rest).getD (prefixLength (firstChar :: rest) child.key) 0),
                      Node.mk (((firstChar :: rest).getD (prefixLength (firstChar :: rest) child.key) 0) ::
                      ((firstChar :: rest).drop (prefixLength (firstChar :: rest) child.key + 1))) insKeyFull
                      (decide (countParams (((firstChar :: rest).getD (prefixLength (firstChar :: rest) child.key) 0) ::
                        ((firstChar :: rest).drop (prefixLength (firstChar :: rest) child.key + 1))) ≠ 0)) true value []))) ≤ f1 + 1 := by
                rw [← hdropcons, ← hSCdef]
                exact hSCsz
              have hmemNL : (((firstChar :: rest).getD (prefixLength (firstChar :: rest) child.key) 0),
                  Node.mk (((firstChar :: rest).getD (prefixLength (firstChar :: rest) child.key) 0) ::
                      ((firstChar :: rest).drop (prefixLength (firstChar :: rest) child.key + 1))) insKeyFull
                      (decide (countParams (((firstChar :: rest).getD (prefixLength (firstChar :: rest) child.key) 0) ::
                        ((firstChar :: rest).drop (prefixLength (firstChar :: rest) child.key + 1))) ≠ 0)) true value []) ∈
                  edgesAdd [((child.key.drop (prefixLength (firstChar :: rest) child.key)).headD 0,
                    Node.mk (child.key.drop (prefixLength (firstChar :: rest) child.key))
                      child.route child.param child.leaf child.value child.edges)]
                    (((firstChar :: rest).getD (prefixLength (firstChar :: rest) child.key) 0),
                      Node.mk (((firstChar :: rest).getD (prefixLength (firstChar :: rest) child.key) 0) ::
                      ((firstChar :: rest).drop (prefixLength (firstChar :: rest) child.key + 1))) insKeyFull
                      (decide (countParams (((firstChar :: rest).getD (prefixLength (firstChar :: rest) child.key) 0) ::
                        ((firstChar :: rest).drop (prefixLength (firstChar :: rest) child.key + 1))) ≠ 0)) true value []) :=
                x_mem_edgesAdd
              have hNLsz : Node.size (Node.mk (((firstChar :: rest).getD (prefixLength (firstChar :: rest) child.key) 0) ::
                      ((firstChar :: rest).drop (prefixLength (firstChar :: rest) child.key + 1))) insKeyFull
                      (decide (countParams (((firstChar :: rest).getD (prefixLength (firstChar :: rest) child.key) 0) ::
                        ((firstChar :: rest).drop (prefixLength (firstChar :: rest) child.key + 1))) ≠ 0)) true value []) ≤ f1 := by
                have h1 : Node.size (Node.mk (((firstChar :: rest).getD (prefixLength (firstChar :: rest) child.key) 0) ::
                      ((firstChar :: rest).drop (prefixLength (firstChar :: rest) child.key + 1))) insKeyFull
                      (decide (countParams (((firstChar :: rest).getD (prefixLength (firstChar :: rest) child.key) 0) ::
                        ((firstChar :: rest).drop (prefixLength (firstChar :: rest) child.key + 1))) ≠ 0)) true value []) <
                    edgesSize (edgesAdd [((child.key.drop (prefixLength (firstChar :: rest) child.key)).headD 0,
                    Node.mk (child.key.drop (prefixLength (firstChar :: rest) child.key))
                      child.route child.param child.leaf child.value child.edges)]
                      (((firstChar :: rest).getD (prefixLength (firstChar :: rest) child.key) 0),
                        Node.mk (((firstChar :: rest).getD (prefixLength (firstChar :: rest) child.key) 0) ::
                      ((firstChar :: rest).drop (prefixLength (firstChar :: rest) child.key + 1))) insKeyFull
                      (decide (countParams (((firstChar :: rest).getD (prefixLength (firstChar :: rest) child.key) 0) ::
                        ((firstChar :: rest).drop (prefixLength (firstChar :: rest) child.key + 1))) ≠ 0)) true value [])) :=
                  size_snd_lt_of_mem hmemNL
                rw [Node.size] at hsz1
                omega
              obtain ⟨f2, hf2⟩ := node_size_succ hNLsz
              have hlvl3 : nodeInsert full2 v2 params2 f1
                  (Node.mk (((firstChar :: rest).getD (prefixLength (firstChar :: rest) child.key) 0) ::
                      ((firstChar :: rest).drop (prefixLength (firstChar :: rest) child.key + 1))) insKeyFull
                      (decide (countParams (((firstChar :: rest).getD (prefixLength (firstChar :: rest) child.key) 0) ::
                        ((firstChar :: rest).drop (prefixLength (firstChar :: rest) child.key + 1))) ≠ 0)) true value [])
                  ((((firstChar :: rest).getD (prefixLength (firstChar :: rest) child.key) 0) ::
                    ((firstChar :: rest).drop (prefixLength (firstChar :: rest) child.key + 1))).drop
                    (prefixLength (((firstChar :: rest).getD (prefixLength (firstChar :: rest) child.key) 0) ::
                      ((firstChar :: rest).drop (prefixLength (firstChar :: rest) child.key + 1)))
                      (Node.mk (((firstChar :: rest).getD (prefixLength (firstChar :: rest) child.key) 0) ::
                      ((firstChar :: rest).drop (prefixLength (firstChar :: rest) child.key + 1))) insKeyFull
                      (decide (countParams (((firstChar :: rest).getD (prefixLength (firstChar :: rest) child.key) 0) ::
                        ((firstChar :: rest).drop (prefixLength (firstChar :: rest) child.key + 1))) ≠ 0)) true value []).key)) = .error .duplicate := by
                show nodeInsert full2 v2 params2 f1
                  (Node.mk (((firstChar :: rest).getD (prefixLength (firstChar :: rest) child.key) 0) ::
                      ((firstChar :: rest).drop (prefixLength (firstChar :: rest) child.key + 1))) insKeyFull
                      (decide (countParams (((firstChar :: rest).getD (prefixLength (firstChar :: rest) child.key) 0) ::
                        ((firstChar :: rest).drop (prefixLength (firstChar :: rest) child.key + 1))) ≠ 0)) true value [])
                  ((((firstChar :: rest).getD (prefixLength (firstChar :: rest) child.key) 0) ::
                    ((firstChar :: rest).drop (prefixLength (firstChar :: rest) child.key + 1))).drop
                    (prefixLength (((firstChar :: rest).getD (prefixLength (firstChar :: rest) child.key) 0) ::
                      ((firstChar :: rest).drop (prefixLength (firstChar :: rest) child.key + 1)))
                      (((firstChar :: rest).getD (prefixLength (firstChar :: rest) child.key) 0) ::
                      ((firstChar :: rest).drop (prefixLength (firstChar :: rest) child.key + 1))))) = .error .duplicate
                rw [prefixLength_self, List.drop_length, hf2]
                rfl
              rw [hlvl3]
            rw [hlvl2]
          · have hpleq : prefixLength (firstChar :: rest) child.key = (firstChar :: rest).length := by
              omega
            have hSCdef : splitChild child (firstChar :: rest) insKeyFull value
                (prefixLength (firstChar :: rest) child.key) =
                Node.mk (child.key.take (prefixLength (firstChar :: rest) child.key))
                  insKeyFull child.param true value
                  [((child.key.drop (prefixLength (firstChar :: rest) child.key)).headD 0,
                    Node.mk (child.key.drop (prefixLength (firstChar :: rest) child.key))
                      child.route child.param child.leaf child.value child.edges)] :=
              splitChild_ge (by omega)
            have hplen : prefixLength (firstChar :: rest)
                (splitChild child (firstChar :: rest) insKeyFull value
                  (prefixLength (firstChar :: rest) child.key)).key =
                (splitChild child (firstChar :: rest) insKeyFull value
                  (prefixLength (firstChar :: rest) child.key)).key.length := by
              rw [hSCdef]
              show prefixLength (firstChar :: rest)
                  (child.key.take (prefixLength (firstChar :: rest) child.key)) =
                (child.key.take (prefixLength (firstChar :: rest) child.key)).length
              rw [← htake]
              exact prefixLength_of_prefix _ _ (List.take_prefix _ _)
            rw [if_pos hplen]
            have hSCkeylen : (splitChild child (firstChar :: rest) insKeyFull value
                  (prefixLength (firstChar :: rest) child.key)).key.length =
                prefixLength (firstChar :: rest) child.key := by
              rw [hSCdef]
              show (child.key.take (prefixLength (firstChar :: rest) child.key)).length = _
              rw [List.length_take]
              omega
            rw [hplen, hSCkeylen]
            have hdropnil : (firstChar :: rest).drop (prefixLength (firstChar :: rest) child.key) = [] := by
              rw [hpleq]
              exact List.drop_length _
            have hlvl2 : nodeInsert full2 v2 params2 (f1 + 1)
                (splitChild child (firstChar :: rest) insKeyFull value
                  (prefixLength (firstChar :: rest) child.key))
                ((firstChar :: rest).drop (prefixLength (firstChar :: rest) child.key)) =
                .error .duplicate := by
              rw [hdropnil, hSCdef]
              rfl
            rw [hlvl2]

/-- Claim C7: registering the exact same pattern a second time on the same
method tree fails deterministically at the second registration — the
insertion walk retraces the first pattern's path, ends on the node the
first registration marked as a leaf carrying its handler, and
`node.insert` rejects it (the Go code panics with "route already
registered"), for any handler values. -/
theorem c7_duplicate_rejected {t t2 : Node} {key : List Nat} {v v2 : Option Nat}
    (hr : Reachable t) (hok : insert t key v = .ok t2) :
    insert t2 key v2 = .error .duplicate := by
  have hs : allSortedB t = true := reachable_sorted hr
  rw [insert] at hok ⊢
  split at hok
  · rename_i hcp
    rw [if_pos hcp]
    split at hok
    · cases hok
    · exact nodeInsert_dup _ t key t2 hs hok _ (Nat.le_refl _)
  · rename_i hcp
    rw [if_neg hcp]
    exact nodeInsert_dup _ t key t2 hs hok _ (Nat.le_refl _)

theorem c7_duplicate_rejected_witness :
    insert (Node.mk [] [] false false none
      [(47, Node.mk [47, 97] [47, 97] false true (some 1) [])]) [47, 97] (some 2) =
      .error .duplicate :=
  c7_duplicate_rejected Reachable.root rfl


/-!  Claim C8: the pattern scanner `validateParams`. -/

/-- A list prefix read back by `take` of its own length. -/
theorem take_length_takeWhile (p : Nat → Bool) (l : List Nat) :
    l.take (l.takeWhile p).length = l.takeWhile p :=
  (List.prefix_iff_eq_take.mp (List.takeWhile_prefix p)).symm

/-- Expose the byte at an in-range index at the head of `drop`. -/
theorem drop_cons_getD {b : List Nat} {i : Nat} (h : i < b.length) :
    b.drop i = b.getD i 0 :: b.drop (i + 1) := by
  rw [List.getD_eq_getElem?_getD, List.getElem?_eq_getElem h]
  simpa using List.drop_eq_getElem_cons h

/-- The token name starting at byte offset `e`: the bytes up to the next
`/` (or the end of the pattern). -/
def nameFrom (b : List Nat) (e : Nat) : List Nat :=
  (b.drop e).takeWhile (fun c => !decide (c = slash))

/-- Whether a byte string contains a `:` or `*` marker byte. -/
def hasMarker (l : List Nat) : Bool :=
  l.any (fun c => decide (c = star) || decide (c = colon))

theorem segLoop_char (b : List Nat) :
    ∀ fuel start e, fuel + e = b.length →
      segLoop b start fuel e =
        if hasMarker (nameFrom b e) then none
        else some ((b.drop start).take (e + (nameFrom b e).length - start),
          e + (nameFrom b e).length) := by
  intro fuel
  induction fuel with
  | zero =>
    intro start e hlen
    have hnil : b.drop e = [] := List.drop_eq_nil_of_le (by omega)
    have h1 : nameFrom b e = [] := by
      rw [nameFrom, hnil]
      rfl
    rw [segLoop, h1]
    simp [hasMarker]
  | succ fuel ih =>
    intro start e hlen
    have he : e < b.length := by omega
    have hdrop := drop_cons_getD he
    rw [segLoop]
    by_cases hsl : b.getD e 0 = slash
    · rw [if_pos hsl]
      have h1 : nameFrom b e = [] := by
        rw [nameFrom, hdrop, List.takeWhile_cons, decide_eq_true hsl]
        rfl
      rw [h1]
      simp [hasMarker]
    · rw [if_neg hsl]
      have h1 : nameFrom b e = b.getD e 0 :: nameFrom b (e + 1) := by
        rw [nameFrom, nameFrom, hdrop, List.takeWhile_cons, decide_eq_false hsl]
        rfl
      by_cases hmk : b.getD e 0 = star ∨ b.getD e 0 = colon
      · rw [if_pos hmk]
        have h2 : hasMarker (nameFrom b e) = true := by
          rw [h1, hasMarker, List.any_cons]
          rcases hmk with h | h <;> rw [decide_eq_true h] <;> simp
        rw [h2]
        rfl
      · rw [if_neg hmk]
        rw [ih start (e + 1) (by omega)]
        have hx : ¬ b.getD e 0 = star := fun h => hmk (Or.inl h)
        have hy : ¬ b.getD e 0 = colon := fun h => hmk (Or.inr h)
        have h2 : hasMarker (nameFrom b e) = hasMarker (nameFrom b (e + 1)) := by
          rw [h1, hasMarker, hasMarker, List.any_cons, decide_eq_false hx,
            decide_eq_false hy]
          rfl
        have h3 : e + (nameFrom b e).length = (e + 1) + (nameFrom b (e + 1)).length := by
          rw [h1, List.length_cons]
          omega
        rw [h2, h3]

theorem pathSegment_char {b : List Nat} {i : Nat} (h : i + 1 < b.length) :
    pathSegment b (i + 1) b.length =
      if hasMarker (nameFrom b (i + 1)) then none
      else some (nameFrom b (i + 1), i + 1 + (nameFrom b (i + 1)).length) := by
  rw [pathSegment, if_neg (by omega)]
  rw [segLoop_char b (b.length - (i + 1)) (i + 1) (i + 1) (by omega)]
  have h1 : i + 1 + (nameFrom b (i + 1)).length - (i + 1) = (nameFrom b (i + 1)).length := by
    omega
  rw [h1, nameFrom, take_length_takeWhile]

/-- Claim C8's conditions on the `:name`/`*name` token whose marker sits at
byte offset `i` of the raw pattern, read off the claim: the marker is
immediately followed by a non-empty name delimited by the next `/`, the
name contains neither `:` nor `*`, and a `*` wildcard token extends to the
very end of the pattern. -/
def validTokenAt (b : List Nat) (i : Nat) : Bool :=
  !decide (nameFrom b (i + 1) = []) &&
    (!hasMarker (nameFrom b (i + 1)) &&
      (!decide (b.getD i 0 = star) ||
        decide (i + 1 + (nameFrom b (i + 1)).length = b.length)))

/-- Position `i` of the pattern is unobjectionable: either it is not a
marker byte, or the token it starts is well formed. -/
def tokenOkAt (b : List Nat) (i : Nat) : Bool :=
  if b.getD i 0 = colon ∨ b.getD i 0 = star then validTokenAt b i else true

/-- The spec-side acceptance predicate of claim C8: every marker byte of
the pattern heads a well-formed token. -/
def patternTokensWellFormed (b : List Nat) : Bool :=
  (List.range b.length).all (tokenOkAt b)

theorem forall_from_succ {P : Nat → Prop} {i len : Nat} (h : i < len) :
    (∀ j, i ≤ j → j < len → P j) ↔ (P i ∧ ∀ j, i + 1 ≤ j → j < len → P j) := by
  constructor
  · intro hall
    exact ⟨hall i (Nat.le_refl _) h, fun j h1 h2 => hall j (by omega) h2⟩
  · rintro ⟨h0, hrest⟩ j h1 h2
    rcases Nat.eq_or_lt_of_le h1 with h3 | h3
    · rw [← h3]
      exact h0
    · exact hrest j (by omega) h2

theorem vpLoop_colon_none {b : List Nat} {fuel i count : Nat}
    (h1 : b.getD i 0 = colon) (h2 : pathSegment b (i + 1) b.length = none) :
    vpLoop b (fuel + 1) i count = .error .badChar := by
  rw [vpLoop, if_pos h1, h2]

theorem vpLoop_colon_some {b : List Nat} {fuel i count : Nat} {pn : List Nat} {e : Nat}
    (h1 : b.getD i 0 = colon) (h2 : pathSegment b (i + 1) b.length = some (pn, e)) :
    vpLoop b (fuel + 1) i count =
      if pn.length = 0 then .error .missingName
      else vpLoop b fuel (i + 1) (count + 1) := by
  rw [vpLoop, if_pos h1, h2]

theorem vpLoop_star_none {b : List Nat} {fuel i count : Nat}
    (h1 : ¬ b.getD i 0 = colon) (h2 : b.getD i 0 = star)
    (h3 : pathSegment b (i + 1) b.length = none) :
    vpLoop b (fuel + 1) i count = .error .badChar := by
  rw [vpLoop, if_neg h1, if_pos h2, h3]

theorem vpLoop_star_some {b : List Nat} {fuel i count : Nat} {pn : List Nat} {e : Nat}
    (h1 : ¬ b.getD i 0 = colon) (h2 : b.getD i 0 = star)
    (h3 : pathSegment b (i + 1) b.length = some (pn, e)) :
    vpLoop b (fuel + 1) i count =
      if pn.length = 0 then .error .missingName
      else if e ≠ b.length then .error .wildcardNotLast
      else vpLoop b fuel (i + 1) (count + 1) := by
  rw [vpLoop, if_neg h1, if_pos h2, h3]

theorem vpLoop_other {b : List Nat} {fuel i count : Nat}
    (h1 : ¬ b.getD i 0 = colon) (h2 : ¬ b.getD i 0 = star) :
    vpLoop b (fuel + 1) i count = vpLoop b fuel (i + 1) count := by
  rw [vpLoop, if_neg h1, if_neg h2]

theorem vpLoop_char (b : List Nat) :
    ∀ fuel i count, fuel + i = b.length →
      ((∃ c, vpLoop b fuel i count = .ok c) ↔
        ∀ j, i ≤ j → j < b.length → tokenOkAt b j = true) := by
  intro fuel
  induction fuel with
  | zero =>
    intro i count hlen
    constructor
    · intro _ j hj1 hj2
      omega
    · intro _
      exact ⟨count, rfl⟩
  | succ fuel ih =>
    intro i count hlen
    have hi : i < b.length := by omega
    rw [forall_from_succ hi]
    by_cases hc : b.getD i 0 = colon
    · have htok : tokenOkAt b i = validTokenAt b i := by
        rw [tokenOkAt, if_pos (Or.inl hc)]
      have hnst : ¬ b.getD i 0 = star := by
        rw [hc]
        decide
      by_cases hend : i + 1 < b.length
      · by_cases hmk : hasMarker (nameFrom b (i + 1)) = true
        · have hps : pathSegment b (i + 1) b.length = none := by
            rw [pathSegment_char hend, if_pos hmk]
          rw [vpLoop_colon_none hc hps]
          constructor
          · rintro ⟨c, hc2⟩
            cases hc2
          · rintro ⟨h1, _⟩
            rw [htok, validTokenAt, hmk] at h1
            simp at h1
        · have hps : pathSegment b (i + 1) b.length =
              some (nameFrom b (i + 1), i + 1 + (nameFrom b (i + 1)).length) := by
            rw [pathSegment_char hend, if_neg hmk]
          rw [vpLoop_colon_some hc hps]
          by_cases hne : (nameFrom b (i + 1)).length = 0
          · rw [if_pos hne]
            constructor
            · rintro ⟨c, hc2⟩
              cases hc2
            · rintro ⟨h1, _⟩
              rw [htok, validTokenAt, List.length_eq_zero.mp hne] at h1
              simp at h1
          · rw [if_neg hne]
            rw [ih (i + 1) (count + 1) (by omega)]
            have h1 : tokenOkAt b i = true := by
              rw [htok, validTokenAt]
              have ha : ¬ nameFrom b (i + 1) = [] := fun hh => hne (by rw [hh]; rfl)
              have hb : hasMarker (nameFrom b (i + 1)) = false := by
                cases hxx : hasMarker (nameFrom b (i + 1))
                · rfl
                · exact absurd hxx hmk
              rw [hb, decide_eq_false ha, decide_eq_false hnst]
              rfl
            rw [h1]
            simp
      · have hps : pathSegment b (i + 1) b.length = none := by
          rw [pathSegment, if_pos (Or.inr (by omega))]
        rw [vpLoop_colon_none hc hps]
        have hnil : nameFrom b (i + 1) = [] := by
          rw [nameFrom, List.drop_eq_nil_of_le (by omega)]
          rfl
        constructor
        · rintro ⟨c, hc2⟩
          cases hc2
        · rintro ⟨h1, _⟩
          rw [htok, validTokenAt, hnil] at h1
          simp at h1
    · by_cases hs : b.getD i 0 = star
      · have htok : tokenOkAt b i = validTokenAt b i := by
          rw [tokenOkAt, if_pos (Or.inr hs)]
        by_cases hend : i + 1 < b.length
        · by_cases hmk : hasMarker (nameFrom b (i + 1)) = true
          · have hps : pathSegment b (i + 1) b.length = none := by
              rw [pathSegment_char hend, if_pos hmk]
            rw [vpLoop_star_none hc hs hps]
            constructor
            · rintro ⟨c, hc2⟩
              cases hc2
            · rintro ⟨h1, _⟩
              rw [htok, validTokenAt, hmk] at h1
              simp at h1
          · have hps : pathSegment b (i + 1) b.length =
                some (nameFrom b (i + 1), i + 1 + (nameFrom b (i + 1)).length) := by
              rw [pathSegment_char hend, if_neg hmk]
            rw [vpLoop_star_some hc hs hps]
            by_cases hne : (nameFrom b (i + 1)).length = 0
            · rw [if_pos hne]
              constructor
              · rintro ⟨c, hc2⟩
                cases hc2
              · rintro ⟨h1, _⟩
                rw [htok, validTokenAt, List.length_eq_zero.mp hne] at h1
                simp at h1
            · rw [if_neg hne]
              by_cases hlast : i + 1 + (nameFrom b (i + 1)).length = b.length
              · rw [if_neg (fun hh => hh hlast)]
                rw [ih (i + 1) (count + 1) (by omega)]
                have h1 : tokenOkAt b i = true := by
                  rw [htok, validTokenAt]
                  have ha : ¬ nameFrom b (i + 1) = [] := fun hh => hne (by rw [hh]; rfl)
                  have hb : hasMarker (nameFrom b (i + 1)) = false := by
                    cases hxx : hasMarker (nameFrom b (i + 1))
                    · rfl
                    · exact absurd hxx hmk
                  rw [hb, decide_eq_false ha, decide_eq_true hlast]
                  simp
                rw [h1]
                simp
              · rw [if_pos hlast]
                constructor
                · rintro ⟨c, hc2⟩
                  cases hc2
                · rintro ⟨h1, _⟩
                  rw [htok, validTokenAt, decide_eq_true hs, decide_eq_false hlast] at h1
                  simp at h1
        · have hps : pathSegment b (i + 1) b.length = none := by
            rw [pathSegment, if_pos (Or.inr (by omega))]
          rw [vpLoop_star_none hc hs hps]
          have hnil : nameFrom b (i + 1) = [] := by
            rw [nameFrom, List.drop_eq_nil_of_le (by omega)]
            rfl
          constructor
          · rintro ⟨c, hc2⟩
            cases hc2
          · rintro ⟨h1, _⟩
            rw [htok, validTokenAt, hnil] at h1
            simp at h1
      · rw [vpLoop_other hc hs]
        rw [ih (i + 1) count (by omega)]
        have h1 : tokenOkAt b i = true := by
          rw [tokenOkAt, if_neg (fun hh => hh.elim hc hs)]
        rw [h1]
        simp

theorem vpLoop_count (b : List Nat) :
    ∀ fuel i count c, fuel + i = b.length → vpLoop b fuel i count = .ok c →
      c = count + countParams (b.drop i) := by
  intro fuel
  induction fuel with
  | zero =>
    intro i count c hlen h
    cases h
    have hnil : b.drop i = [] := List.drop_eq_nil_of_le (by omega)
    rw [hnil]
    rfl
  | succ fuel ih =>
    intro i count c hlen h
    have hi : i < b.length := by omega
    have hcp : countParams (b.drop i) =
        (if b.getD i 0 = colon ∨ b.getD i 0 = star then 1 else 0) +
          countParams (b.drop (i + 1)) := by
      rw [drop_cons_getD hi, countParams, countParams, List.countP_cons]
      by_cases h1 : b.getD i 0 = colon ∨ b.getD i 0 = star
      · rw [if_pos h1]
        rcases h1 with h2 | h2 <;> rw [h2] <;> simp [colon, star] <;> omega
      · rw [if_neg h1]
        have hx : ¬ b.getD i 0 = colon := fun hh => h1 (Or.inl hh)
        have hy : ¬ b.getD i 0 = star := fun hh => h1 (Or.inr hh)
        simp only [decide_eq_false hx, decide_eq_false hy, Bool.or_false]
        rw [if_neg (by decide)]
        omega
    rw [vpLoop] at h
    split at h
    · rename_i h1
      split at h
      · cases h
      · split at h
        · cases h
        · have hrec := ih (i + 1) (count + 1) c (by omega) h
          rw [hcp, if_pos (Or.inl h1)]
          omega
    · rename_i h1
      split at h
      · rename_i h2
        split at h
        · cases h
        · split at h
          · cases h
          · split at h
            · cases h
            · have hrec := ih (i + 1) (count + 1) c (by omega) h
              rw [hcp, if_pos (Or.inr h2)]
              omega
      · rename_i h2
        have hrec := ih (i + 1) count c (by omega) h
        rw [hcp, if_neg (fun hh => hh.elim h1 h2)]
        omega

/-- Claim C8: for every raw pattern, the scanner `validateParams` (as the
registration path invokes it, with the pattern's own marker count as the
expected total) accepts exactly the patterns in which every `:`/`*` marker
is immediately followed by a non-empty name delimited by the next `/`, no
token name contains `:` or `*`, and every `*name` wildcard token is the
final token of the pattern; it fails on every pattern violating one of
these conditions. -/
theorem c8_pattern_validation (b : List Nat) :
    validateParams b (countParams b) = none ↔ patternTokensWellFormed b = true := by
  have hchar := vpLoop_char b b.length 0 0 (by omega)
  have hwf : patternTokensWellFormed b = true ↔
      (∀ j, 0 ≤ j → j < b.length → tokenOkAt b j = true) := by
    rw [patternTokensWellFormed, List.all_eq_true]
    constructor
    · intro h j _ hj
      exact h j (List.mem_range.mpr hj)
    · intro h j hj
      exact h j (Nat.zero_le _) (List.mem_range.mp hj)
  cases hv : vpLoop b b.length 0 0 with
  | error e =>
    have hval : validateParams b (countParams b) = some e := by
      rw [validateParams, hv]
    rw [hval]
    constructor
    · intro h
      cases h
    · intro h
      obtain ⟨c, hc2⟩ := hchar.mpr (hwf.mp h)
      rw [hv] at hc2
      cases hc2
  | ok c =>
    have hcnt := vpLoop_count b b.length 0 0 c (by omega) hv
    rw [List.drop_zero] at hcnt
    have hc2 : c = countParams b := by omega
    have hval : validateParams b (countParams b) = none := by
      rw [validateParams, hv]
      show (if c ≠ countParams b then some VErr.countMismatch else none) = none
      rw [if_neg (by omega)]
    rw [hval]
    constructor
    · intro _
      exact hwf.mpr (hchar.mp ⟨c, hv⟩)
    · intro _
      rfl

/-!  Claim C6: the wildcard consumes the rest of the path. -/

/-- The wildcard exit of `parseParams`: standing on a `*` token that the
scan does not step over, the result is found=true with the name bound to
the `/`-prefixed remainder of the path. -/
theorem ppScan_wildcard {b path : List Nat} {i j e : Nat} {pn : List Nat} {q : Req}
    (hw : checkWildCard b i b.length = true)
    (hstop : j < path.length → ¬ b.getD i 0 = path.getD j 0)
    (hseg : pathSegment b (i + 1) b.length = some (pn, e)) :
    ∀ fuel, ppScan b path fuel i j (some q) =
      some (if path.length = 0 then 0 else path.length - 1, true,
        some (q.setVal pn (slash :: path.drop j))) := by
  have hi : i < b.length := by
    by_contra hcon
    rw [checkWildCard, if_pos (by omega)] at hw
    cases hw
  have hstar : b.getD i 0 = star := by
    by_contra hcon
    rw [checkWildCard, if_neg (by omega), if_pos hcon] at hw
    cases hw
  have htail : ppTail b path i j (some q) =
      some (if path.length = 0 then 0 else path.length - 1, true,
        some (q.setVal pn (slash :: path.drop j))) := by
    cases path with
    | nil =>
      rw [ppTail, if_neg (by rintro ⟨h1, h2⟩; omega), if_pos hw, hseg, List.drop_nil]
      rfl
    | cons p0 rest =>
      rw [ppTail, if_neg (by rintro ⟨h1, h2⟩; omega), if_pos hw, hseg]
      show (if (p0 :: rest).length > 0 then
          (if (p0 :: rest).length ≠ 0 then
            some ((p0 :: rest).length - 1, true,
              some (q.setVal pn (slash :: List.drop j (p0 :: rest))))
          else some (0, true, some (q.setVal pn (slash :: List.drop j (p0 :: rest)))))
        else
          (if (p0 :: rest).length ≠ 0 then
            some ((p0 :: rest).length - 1, true, some (q.setVal pn [slash]))
          else some (0, true, some (q.setVal pn [slash])))) = _
      rw [if_pos (show (p0 :: rest).length > 0 by simp)]
      rw [if_pos (show (p0 :: rest).length ≠ 0 by simp)]
      rw [if_neg (show ¬ (p0 :: rest).length = 0 by simp)]
  intro fuel
  cases fuel with
  | zero => exact htail
  | succ f =>
    rw [ppScan]
    by_cases hlt : i < b.length ∧ j < path.length
    · rw [if_pos hlt]
      have hnc : ¬ b.getD i 0 = colon := by
        rw [hstar]
        decide
      rw [if_neg hnc, if_neg (hstop hlt.2)]
      exact htail
    · rw [if_neg hlt]
      exact htail

/-- Claim C6: when the scan of `parseParams` stands on a `*` wildcard token
of the pattern (and does not step over it: the path is exhausted or its
current byte differs), the walk terminates successfully with found=true and
the wildcard's name is bound to the entire remainder of the request path
prefixed with `/` — which is the single byte `/` when nothing of the path
remains. -/
theorem c6_wildcard_binds_rest {b path : List Nat} {i j e : Nat} {pn : List Nat} {q : Req}
    (hw : checkWildCard b i b.length = true)
    (hstop : j < path.length → ¬ b.getD i 0 = path.getD j 0)
    (hseg : pathSegment b (i + 1) b.length = some (pn, e)) :
    ∀ fuel, ppScan b path fuel i j (some q) =
      some (if path.length = 0 then 0 else path.length - 1, true,
        some (q.setVal pn (slash :: path.drop j))) :=
  ppScan_wildcard hw hstop hseg

theorem c6_wildcard_binds_rest_witness :
    ppScan [47, 42, 120] [47, 97, 98] 5 1 1 (some emptyReq) =
      some (2, true, some (emptyReq.setVal [120] [47, 97, 98])) :=
  c6_wildcard_binds_rest (by decide) (by decide)
    (by decide : pathSegment [47, 42, 120] 2 3 = some ([120], 3)) 5

/-!  Claim C1 (amended): insert/search round trip for a single pattern. -/

/-- Whether a byte string is free of `/`. -/
def noSlash (l : List Nat) : Bool := l.all (fun c => !decide (c = slash))

theorem takeWhile_all_append {p : Nat → Bool} {xs : List Nat} (ys : List Nat)
    (h : ∀ x ∈ xs, p x = true) :
    (xs ++ ys).takeWhile p = xs ++ ys.takeWhile p := by
  induction xs with
  | nil => rfl
  | cons x xs ih =>
    rw [List.cons_append, List.takeWhile_cons, h x (List.mem_cons_self _ _),
      ih (fun y hy => h y (List.mem_cons_of_mem _ hy))]
    rfl

theorem takeWhile_head_false {p : Nat → Bool} {y : Nat} {ys : List Nat}
    (h : p y = false) : (y :: ys).takeWhile p = [] := by
  rw [List.takeWhile_cons, h]
  rfl

theorem noSlash_all {l : List Nat} (h : noSlash l = true) :
    ∀ x ∈ l, (fun c => !decide (c = slash)) x = true := by
  intro x hx
  exact List.all_eq_true.mp h x hx

/-- `pathSegment` on a well-delimited segment: starting at `s`, the bytes
up to the next `/` (or the end) are exactly `seg`, marker-free, so the
scanner returns `seg` and stops right after it. -/
theorem pathSegment_exact {b : List Nat} {s : Nat} {seg rest2 : List Nat}
    (hdrop : b.drop s = seg ++ rest2) (hne : seg ≠ [])
    (hsl : noSlash seg = true) (hmk : hasMarker seg = false)
    (hrest : rest2 = [] ∨ rest2.headD 0 = slash) :
    pathSegment b s b.length = some (seg, s + seg.length) := by
  have hlen : s < b.length := by
    by_contra hcon
    rw [List.drop_eq_nil_of_le (by omega)] at hdrop
    cases seg with
    | nil => exact hne rfl
    | cons a l => cases hdrop
  have hname : nameFrom b s = seg := by
    rw [nameFrom, hdrop, takeWhile_all_append rest2 (noSlash_all hsl)]
    rcases hrest with h | h
    · rw [h, List.takeWhile_nil, List.append_nil]
    · cases rest2 with
      | nil => rw [List.takeWhile_nil, List.append_nil]
      | cons r0 rs =>
        have h0 : r0 = slash := by simpa using h
        rw [takeWhile_head_false (by rw [h0]; simp), List.append_nil]
  have hdlen : (b.drop s).length = b.length - s := List.length_drop _ _
  have hslen : s + seg.length ≤ b.length := by
    rw [hdrop, List.length_append] at hdlen
    omega
  rw [pathSegment, if_neg (by omega)]
  rw [segLoop_char b (b.length - s) s s (by omega)]
  rw [hname, hmk]
  have h1 : s + seg.length - s = seg.length := by omega
  rw [if_neg (by simp), h1, ← hname, nameFrom, take_length_takeWhile]

theorem prefixLength_append : ∀ (xs as bs : List Nat),
    prefixLength (xs ++ as) (xs ++ bs) = xs.length + prefixLength as bs := by
  intro xs
  induction xs with
  | nil =>
    intro as bs
    simp
  | cons x t ih =>
    intro as bs
    rw [List.cons_append, List.cons_append, prefixLength, if_pos rfl, ih]
    rw [List.length_cons]
    omega

theorem prefixLength_head_ne {a b : Nat} {as bs : List Nat} (h : ¬ a = b) :
    prefixLength (a :: as) (b :: bs) = 0 := by
  rw [prefixLength, if_neg h]

theorem drop_succ_of_drop_cons {b : List Nat} {i c : Nat} {rest : List Nat}
    (h : b.drop i = c :: rest) : b.drop (i + 1) = rest := by
  have h2 : (b.drop i).drop 1 = b.drop (i + 1) := List.drop_drop 1 i b
  rw [h] at h2
  exact h2.symm

theorem drop_nonempty_lt {b : List Nat} {i c : Nat} {rest : List Nat}
    (h : b.drop i = c :: rest) : i < b.length := by
  by_contra hcon
  rw [List.drop_eq_nil_of_le (by omega)] at h
  cases h

theorem getD_of_drop_cons {b : List Nat} {i c : Nat} {rest : List Nat}
    (h : b.drop i = c :: rest) : b.getD i 0 = c := by
  rw [← headD_drop, h]
  rfl

/-- Spec-side canonical decomposition of a route pattern after its leading
literal: a list of `(name, val, lit)` items — the `:name` variable, the
value substituted for it in the request path, and the literal run that
follows — plus an optional trailing `*name` wildcard.  The pattern bytes
they denote are rebuilt by `renderPat`, the request path by `renderPath`. -/
def renderPat : List (List Nat × List Nat × List Nat) → Option (List Nat) → List Nat
  | [], none => []
  | [], some wn => star :: wn
  | (name, _, lit) :: rest, w => colon :: (name ++ (lit ++ renderPat rest w))

/-- The request-path bytes corresponding to `renderPat`: each variable
replaced by its value, the wildcard replaced by the raw suffix. -/
def renderPath : List (List Nat × List Nat × List Nat) → Option (List Nat) →
    List Nat → List Nat
  | [], none, _ => []
  | [], some _, suffix => suffix
  | (_, val, lit) :: rest, w, suffix => val ++ (lit ++ renderPath rest w suffix)

/-- Well-formedness of the decomposition, as the spec's claim constrains
it: names and values are non-empty and free of `/`, `:` and `*`; literal
runs are marker-free and begin with `/` (an empty literal run is allowed
only at the very end of a pattern without a wildcard); a wildcard name is
non-empty and free of `/`, `:` and `*`. -/
def wfToks : List (List Nat × List Nat × List Nat) → Option (List Nat) → Bool
  | [], w =>
    match w with
    | none => true
    | some wn => !decide (wn = []) && (noSlash wn && !hasMarker wn)
  | (name, val, lit) :: rest, w =>
    !decide (name = []) && (noSlash name && (!hasMarker name &&
      (!decide (val = []) && (noSlash val && (!hasMarker val &&
        (!hasMarker lit &&
          ((match lit, rest, w with
            | [], [], none => true
            | [], _, _ => false
            | l0 :: _, _, _ => decide (l0 = slash)) &&
            wfToks rest w)))))))

/-- The bindings accumulated by the scan: each variable name bound to its
substituted value, in scan order. -/
def bindAll (q : Req) : List (List Nat × List Nat × List Nat) → Req
  | [] => q
  | (name, val, _) :: rest => bindAll (q.setVal name val) rest

/-- The `(lastIdx, found, request)` triple `parseParams` produces on a
successful scan of a rendered path: full consumption for a pattern without
a wildcard, the wildcard exit otherwise. -/
def scanResult (path suffix : List Nat) (w : Option (List Nat)) (q : Req) :
    Nat × Bool × Option Req :=
  match w with
  | none => (path.length, true, some q)
  | some wn => (if path.length = 0 then 0 else path.length - 1, true,
      some (q.setVal wn (slash :: suffix)))

theorem hasMarker_cons_false {c : Nat} {l : List Nat} (h : hasMarker (c :: l) = false) :
    ¬ c = colon ∧ ¬ c = star ∧ hasMarker l = false := by
  rw [hasMarker, List.any_cons] at h
  simp only [Bool.or_eq_false_iff, decide_eq_false_iff_not] at h
  exact ⟨h.1.2, h.1.1, by rw [hasMarker]; exact h.2⟩

/-- The scanning loop of `parseParams` on a rendered token list: from a
state whose pattern remainder is a marker-free literal run followed by the
rendered tokens, and whose path remainder is the same literal run followed
by the rendered substitutions, the scan succeeds and binds every variable,
ending in full consumption (no wildcard) or the wildcard exit. -/
theorem ppScan_tokens (b path : List Nat) :
    ∀ fuel lit toks w suffix i j q,
      b.length - i < fuel →
      b.drop i = lit ++ renderPat toks w →
      path.drop j = lit ++ renderPath toks w suffix →
      i ≤ b.length → j ≤ path.length →
      hasMarker lit = false →
      wfToks toks w = true →
      (w.isSome → suffix = [] ∨ ¬ suffix.headD 0 = star) →
      ppScan b path fuel i j (some q) =
        some (scanResult path suffix w (bindAll q toks)) := by
  intro fuel
  induction fuel with
  | zero =>
    intro lit toks w suffix i j q hfuel
    omega
  | succ fuel ih =>
    intro lit toks w suffix i j q hfuel hb hp hile hjle hlit hwf hsuf
    cases lit with
    | cons c lit2 =>
      obtain ⟨hc1, hc2, hlit2⟩ := hasMarker_cons_false hlit
      rw [List.cons_append] at hb hp
      have hi : i < b.length := drop_nonempty_lt hb
      have hj : j < path.length := drop_nonempty_lt hp
      have hbi : b.getD i 0 = c := getD_of_drop_cons hb
      have hpj : path.getD j 0 = c := getD_of_drop_cons hp
      rw [ppScan, if_pos ⟨hi, hj⟩, if_neg (by rw [hbi]; exact hc1),
        if_pos (by rw [hbi, hpj])]
      exact ih lit2 toks w suffix (i + 1) (j + 1) q (by omega)
        (drop_succ_of_drop_cons hb) (drop_succ_of_drop_cons hp)
        (by omega) (by omega) hlit2 hwf hsuf
    | nil =>
      rw [List.nil_append] at hb hp
      cases toks with
      | cons tk rest =>
        obtain ⟨name, val, tlit⟩ := tk
        rw [wfToks.eq_def] at hwf
        simp only [Bool.and_eq_true, Bool.not_eq_true', decide_eq_false_iff_not] at hwf
        obtain ⟨hnme, hnsl, hnmk, hvne, hvsl, hvmk, htmk, hmatch, hrest⟩ := hwf
        rw [renderPat] at hb
        rw [renderPath] at hp
        have hi : i < b.length := drop_nonempty_lt hb
        have hbi : b.getD i 0 = colon := getD_of_drop_cons hb
        have hj : j < path.length := by
          cases hval : val with
          | nil => exact absurd hval hvne
          | cons v0 vs =>
            rw [hval, List.cons_append] at hp
            exact drop_nonempty_lt hp
        have hrest2 : tlit ++ renderPat rest w = [] ∨
            (tlit ++ renderPat rest w).headD 0 = slash := by
          cases tlit with
          | nil =>
            cases rest with
            | cons _ _ => cases hmatch
            | nil =>
              cases w with
              | some _ => cases hmatch
              | none => exact Or.inl rfl
          | cons l0 ls =>
            refine Or.inr ?_
            have h0 : l0 = slash := by simpa using hmatch
            rw [List.cons_append]
            simpa using h0
        have hrest3 : tlit ++ renderPath rest w suffix = [] ∨
            (tlit ++ renderPath rest w suffix).headD 0 = slash := by
          cases tlit with
          | nil =>
            cases rest with
            | cons _ _ => cases hmatch
            | nil =>
              cases w with
              | some _ => cases hmatch
              | none => exact Or.inl rfl
          | cons l0 ls =>
            refine Or.inr ?_
            have h0 : l0 = slash := by simpa using hmatch
            rw [List.cons_append]
            simpa using h0
        have hdb : b.drop (i + 1) = name ++ (tlit ++ renderPat rest w) :=
          drop_succ_of_drop_cons hb
        have hseg1 : pathSegment b (i + 1) b.length =
            some (name, (i + 1) + name.length) :=
          pathSegment_exact hdb hnme hnsl hnmk hrest2
        have hseg2 : pathSegment path j path.length =
            some (val, j + val.length) :=
          pathSegment_exact hp hvne hvsl hvmk hrest3
        have hd1 : (b.drop (i + 1)).length = b.length - (i + 1) :=
          List.length_drop _ _
        have he1le : (i + 1) + name.length ≤ b.length := by
          rw [hdb, List.length_append] at hd1
          omega
        have hd2 : (path.drop j).length = path.length - j := List.length_drop _ _
        have he2le : j + val.length ≤ path.length := by
          rw [hp, List.length_append] at hd2
          omega
        rw [ppScan, if_pos ⟨hi, hj⟩, if_pos hbi, hseg1, hseg2]
        show ppScan b path fuel ((i + 1) + name.length) (j + val.length)
            (some (q.setVal name val)) =
          some (scanResult path suffix w (bindAll (q.setVal name val) rest))
        have hdb2 : b.drop ((i + 1) + name.length) = tlit ++ renderPat rest w := by
          have h2 : (b.drop (i + 1)).drop name.length =
              b.drop ((i + 1) + name.length) := List.drop_drop _ _ _
          rw [hdb, List.drop_left] at h2
          exact h2.symm
        have hdp2 : path.drop (j + val.length) = tlit ++ renderPath rest w suffix := by
          have h2 : (path.drop j).drop val.length =
              path.drop (j + val.length) := List.drop_drop _ _ _
          rw [hp, List.drop_left] at h2
          exact h2.symm
        exact ih tlit rest w suffix ((i + 1) + name.length) (j + val.length)
          (q.setVal name val) (by omega) hdb2 hdp2 he1le he2le htmk hrest hsuf
      | nil =>
        cases w with
        | none =>
          rw [renderPat] at hb
          rw [renderPath] at hp
          have hieq : b.length ≤ i := by
            by_contra hcon
            have := List.length_drop i b
            rw [hb] at this
            simp at this
            omega
          have hjeq : path.length ≤ j := by
            by_contra hcon
            have := List.length_drop j path
            rw [hp] at this
            simp at this
            omega
          rw [ppScan, if_neg (by rintro ⟨h1, _⟩; omega)]
          rw [ppTail, if_pos ⟨by omega, by omega⟩]
          rw [show j = path.length by omega]
          rfl
        | some wn =>
          rw [wfToks] at hwf
          simp only [Bool.and_eq_true, Bool.not_eq_true', decide_eq_false_iff_not] at hwf
          obtain ⟨hwne, hwsl, hwmk⟩ := hwf
          rw [renderPat] at hb
          rw [renderPath] at hp
          have hi : i < b.length := drop_nonempty_lt hb
          have hbi : b.getD i 0 = star := getD_of_drop_cons hb
          have hw : checkWildCard b i b.length = true := by
            rw [checkWildCard, if_neg (by omega), if_neg (fun hh => hh hbi)]
          have hstop : j < path.length → ¬ b.getD i 0 = path.getD j 0 := by
            intro hjlt
            have hsne : suffix ≠ [] := by
              intro hnil
              rw [hnil] at hp
              have := List.length_drop j path
              rw [hp] at this
              simp at this
              omega
            rcases hsuf rfl with h | h
            · exact absurd h hsne
            · rw [hbi, ← headD_drop, hp]
              exact fun hh => h hh.symm
          have hdb : b.drop (i + 1) = wn ++ [] := by
            rw [List.append_nil]
            exact drop_succ_of_drop_cons hb
          have hseg : pathSegment b (i + 1) b.length =
              some (wn, (i + 1) + wn.length) :=
            pathSegment_exact hdb hwne hwsl hwmk (Or.inl rfl)
          rw [ppScan_wildcard hw hstop hseg (fuel + 1), hp]
          rfl
  
/-- `parseParams` on a rendered pattern/path pair: the whole scan from the
start succeeds with all variables bound. -/
theorem parseParams_tokens (toks : List (List Nat × List Nat × List Nat))
    (w : Option (List Nat)) (suffix : List Nat) (q : Req)
    (hwf : wfToks toks w = true)
    (hsuf : w.isSome = true → suffix = [] ∨ ¬ suffix.headD 0 = star)
    (hnt : toks ≠ [] ∨ ¬ w = none) :
    parseParams (renderPat toks w) (renderPath toks w suffix) (some q) =
      some (scanResult (renderPath toks w suffix) suffix w (bindAll q toks)) := by
  have hcond : ¬ ((renderPath toks w suffix).length = 0 ∧
      ¬ (checkWildCard (renderPat toks w) 0 (renderPat toks w).length ∨
        checkWildCard (renderPat toks w) 1 (renderPat toks w).length)) := by
    rintro ⟨h1, h2⟩
    cases toks with
    | cons tk rest =>
      obtain ⟨name, val, tlit⟩ := tk
      rw [wfToks.eq_def] at hwf
      simp only [Bool.and_eq_true, Bool.not_eq_true', decide_eq_false_iff_not] at hwf
      rw [renderPath, List.length_append] at h1
      exact hwf.2.2.2.1 (List.length_eq_zero.mp (by omega))
    | nil =>
      cases w with
      | none =>
        rcases hnt with h | h
        · exact h rfl
        · exact h rfl
      | some wn =>
        apply h2
        left
        rw [renderPat, checkWildCard, if_neg (by simp), if_neg (fun hh => hh rfl)]
  rw [parseParams, if_neg hcond]
  exact ppScan_tokens (renderPat toks w) (renderPath toks w suffix)
    ((renderPat toks w).length + 1) [] toks w suffix 0 0 q (by omega)
    (by rw [List.drop_zero, List.nil_append])
    (by rw [List.drop_zero, List.nil_append])
    (Nat.zero_le _) (Nat.zero_le _) rfl hwf hsuf

/-- The tree holding exactly one registered pattern: a fresh root with a
single edge to a leaf carrying the whole pattern as its key. -/
theorem insert_single {Pr : List Nat} {h : Nat} {t : Node}
    (hins : insert emptyNode (slash :: Pr) (some h) = .ok t) :
    t = Node.mk [] [] false false none
      [(slash, Node.mk (slash :: Pr) (slash :: Pr)
        (decide (countParams (slash :: Pr) ≠ 0)) true (some h) [])] := by
  rw [insert] at hins
  have hsz : Node.size emptyNode = 0 + 1 := rfl
  rw [hsz] at hins
  rw [nodeInsert_cons_none (show edgesGet emptyNode.edges slash = none from rfl)] at hins
  split at hins
  · split at hins
    · cases hins
    · cases hins
      rfl
  · cases hins
    rfl

/-- The variable store the search hands back for a rendered pattern: every
`:name` bound to its value, and the wildcard name (when present) bound to
the `/`-prefixed suffix. -/
def c1Bound (q : Req) (toks : List (List Nat × List Nat × List Nat))
    (w : Option (List Nat)) (suffix : List Nat) : Req :=
  match w with
  | none => bindAll q toks
  | some wn => (bindAll q toks).setVal wn (slash :: suffix)

/-- Claim C1 (amended): restricted to a tree holding a single registered
pattern, and to substituted values that are non-empty and free of `/`, `:`
and `*` (and a wildcard suffix that is empty or does not begin with `*`) —
the restrictions the refuting counterexamples force.  The pattern is
decomposed as a leading `/`-literal, then `:name`-variable/literal
alternations, then an optional trailing `*name` wildcard; searching the
path obtained by substituting each value (and appending the suffix)
returns found = true with the pattern's handler, every variable bound to
its value, and the wildcard bound to the `/`-prefixed suffix. -/
theorem c1_amended_single_pattern {lit0r : List Nat}
    {toks : List (List Nat × List Nat × List Nat)} {w : Option (List Nat)}
    {suffix : List Nat} {h : Nat} {t : Node} (q : Req)
    (hlit0 : hasMarker lit0r = false)
    (hwf : wfToks toks w = true)
    (hsuf : w.isSome = true → suffix = [] ∨ ¬ suffix.headD 0 = star)
    (hins : insert emptyNode (slash :: (lit0r ++ renderPat toks w)) (some h) = .ok t) :
    search t (slash :: (lit0r ++ renderPath toks w suffix)) (some q) =
      some (some h, true, some { c1Bound q toks w suffix with
        pat := slash :: (lit0r ++ renderPat toks w) }) := by
  have ht := insert_single hins
  subst ht
  rw [search]
  rw [show Node.size (Node.mk [] [] false false none
    [(slash, Node.mk (slash :: (lit0r ++ renderPat toks w))
      (slash :: (lit0r ++ renderPat toks w))
      (decide (countParams (slash :: (lit0r ++ renderPat toks w)) ≠ 0)) true
      (some h) [])]) = 2 + 1 from rfl]
  have hget : edgesGet [(slash, Node.mk (slash :: (lit0r ++ renderPat toks w))
      (slash :: (lit0r ++ renderPat toks w))
      (decide (countParams (slash :: (lit0r ++ renderPat toks w)) ≠ 0)) true
      (some h) [])] slash =
      some (Node.mk (slash :: (lit0r ++ renderPat toks w))
        (slash :: (lit0r ++ renderPat toks w))
        (decide (countParams (slash :: (lit0r ++ renderPat toks w)) ≠ 0)) true
        (some h) []) :=
    edgesGet_eq_of_mem rfl (List.mem_singleton.mpr rfl)
  have hsc : searchChild (Node.mk [] [] false false none
      [(slash, Node.mk (slash :: (lit0r ++ renderPat toks w))
        (slash :: (lit0r ++ renderPat toks w))
        (decide (countParams (slash :: (lit0r ++ renderPat toks w)) ≠ 0)) true
        (some h) [])]).edges slash =
      some (Node.mk (slash :: (lit0r ++ renderPat toks w))
        (slash :: (lit0r ++ renderPat toks w))
        (decide (countParams (slash :: (lit0r ++ renderPat toks w)) ≠ 0)) true
        (some h) []) := by
    rw [searchChild]
    rw [show (Node.mk [] [] false false none
      [(slash, Node.mk (slash :: (lit0r ++ renderPat toks w))
        (slash :: (lit0r ++ renderPat toks w))
        (decide (countParams (slash :: (lit0r ++ renderPat toks w)) ≠ 0)) true
        (some h) [])]).edges = [(slash, Node.mk (slash :: (lit0r ++ renderPat toks w))
        (slash :: (lit0r ++ renderPat toks w))
        (decide (countParams (slash :: (lit0r ++ renderPat toks w)) ≠ 0)) true
        (some h) [])] from rfl, hget]
  rw [nodeSearch_cons_some hsc]
  rw [show (Node.mk (slash :: (lit0r ++ renderPat toks w))
      (slash :: (lit0r ++ renderPat toks w))
      (decide (countParams (slash :: (lit0r ++ renderPat toks w)) ≠ 0)) true
      (some h) []).key = slash :: (lit0r ++ renderPat toks w) from rfl]
  by_cases hnt : toks = [] ∧ w = none
  · obtain ⟨h1, h2⟩ := hnt
    subst h1
    subst h2
    rw [show renderPat [] none = [] from rfl]
    rw [show renderPath [] none suffix = [] from rfl]
    rw [if_pos ⟨by rw [List.append_nil], by
      rw [List.append_nil, List.take_length, prefixLength_self]⟩]
    rw [List.append_nil, List.drop_length]
    rw [nodeSearch_nil]
    rw [searchTail, if_neg (by rintro ⟨_, hx⟩; exact hx rfl)]
    rfl
  · have hnt2 : toks ≠ [] ∨ ¬ w = none := by
      by_cases hc : toks = []
      · exact Or.inr (fun hw2 => hnt ⟨hc, hw2⟩)
      · exact Or.inl hc
    obtain ⟨m, rp2, hrp, hm, hpne⟩ : ∃ m rp2, renderPat toks w = m :: rp2 ∧
        (decide (m = colon) || decide (m = star)) = true ∧
        (renderPath toks w suffix ≠ [] → ¬ (renderPath toks w suffix).headD 0 = m) := by
      cases toks with
      | cons tk rest =>
        obtain ⟨name, val, tlit⟩ := tk
        rw [wfToks.eq_def] at hwf
        simp only [Bool.and_eq_true, Bool.not_eq_true', decide_eq_false_iff_not] at hwf
        refine ⟨colon, name ++ (tlit ++ renderPat rest w), by rw [renderPat], by decide, ?_⟩
        intro _
        rw [renderPath]
        cases hval : val with
        | nil => exact absurd hval hwf.2.2.2.1
        | cons v0 vs =>
          rw [List.cons_append]
          have hv0 := hasMarker_cons_false (hval ▸ hwf.2.2.2.2.2.1)
          simpa using hv0.1
      | nil =>
        cases w with
        | none => exact absurd ⟨rfl, rfl⟩ hnt
        | some wn =>
          refine ⟨star, wn, by rw [renderPat], by decide, ?_⟩
          intro hne2
          rw [renderPath] at hne2 ⊢
          rcases hsuf rfl with hx | hx
          · exact absurd hx hne2
          · exact hx
    have hCK : (slash :: (lit0r ++ renderPat toks w) : List Nat) =
        (slash :: lit0r) ++ renderPat toks w := rfl
    have hPATH : (slash :: (lit0r ++ renderPath toks w suffix) : List Nat) =
        (slash :: lit0r) ++ renderPath toks w suffix := rfl
    have hcond : ¬ ((slash :: (lit0r ++ renderPath toks w suffix)).length ≥
        (slash :: (lit0r ++ renderPat toks w)).length ∧
        prefixLength ((slash :: (lit0r ++ renderPath toks w suffix)).take
          (slash :: (lit0r ++ renderPat toks w)).length)
          (slash :: (lit0r ++ renderPat toks w)) =
          (slash :: (lit0r ++ renderPat toks w)).length) := by
      rintro ⟨hge, hpf⟩
      rw [hCK, hPATH, List.length_append, List.length_append] at hge
      have hrpge : (renderPat toks w).length ≤ (renderPath toks w suffix).length := by
        omega
      rw [hrp] at hrpge
      rw [List.length_cons] at hrpge
      cases hrpath : renderPath toks w suffix with
      | nil =>
        rw [hrpath] at hrpge
        simp at hrpge
      | cons p0 pr =>
        rw [hCK, hPATH, List.length_append, List.take_append_eq_append_take,
          List.take_all_of_le (by omega), Nat.add_sub_cancel_left,
          prefixLength_append] at hpf
        rw [hrp] at hpf
        rw [hrpath] at hpf
        rw [show (m :: rp2).length = rp2.length + 1 from rfl] at hpf
        rw [List.take_succ_cons] at hpf
        rw [prefixLength_head_ne (by
            have := hpne (by rw [hrpath]; exact fun hh => by cases hh)
            rw [hrpath] at this
            simpa using this)] at hpf
        omega
    rw [if_neg hcond]
    have hcp : countParams (slash :: (lit0r ++ renderPat toks w)) ≠ 0 := by
      rw [countParams]
      have hpos : 0 < List.countP (fun c => decide (c = colon) || decide (c = star))
          (slash :: (lit0r ++ renderPat toks w)) := by
        rw [List.countP_pos]
        refine ⟨m, ?_, hm⟩
        rw [hCK, hrp]
        exact List.mem_append.mpr (Or.inr (List.mem_cons_self _ _))
      omega
    rw [if_pos (show (Node.mk (slash :: (lit0r ++ renderPat toks w))
        (slash :: (lit0r ++ renderPat toks w))
        (decide (countParams (slash :: (lit0r ++ renderPat toks w)) ≠ 0)) true
        (some h) []).param = true from decide_eq_true hcp)]
    have hpl : prefixLength (slash :: (lit0r ++ renderPath toks w suffix))
        (slash :: (lit0r ++ renderPat toks w)) = (slash :: lit0r).length := by
      rw [hCK, hPATH, prefixLength_append]
      cases hrpath : renderPath toks w suffix with
      | nil =>
        rw [hrp]
        rfl
      | cons p0 pr =>
        rw [hrp, prefixLength_head_ne (by
          have := hpne (by rw [hrpath]; exact fun hh => by cases hh)
          rw [hrpath] at this
          intro hh
          exact this (by simpa using hh))]
        omega
    rw [hpl]
    have hdk : (slash :: (lit0r ++ renderPat toks w) : List Nat).drop (slash :: lit0r).length =
        renderPat toks w := by
      rw [hCK]
      exact List.drop_left _ _
    have hdp : (slash :: (lit0r ++ renderPath toks w suffix) : List Nat).drop (slash :: lit0r).length =
        renderPath toks w suffix := by
      rw [hPATH]
      exact List.drop_left _ _
    rw [hdk, hdp]
    obtain ⟨LI, hsr⟩ : ∃ LI, scanResult (renderPath toks w suffix) suffix w
        (bindAll q toks) = (LI, true, some (c1Bound q toks w suffix)) := by
      cases w
      · exact ⟨_, rfl⟩
      · exact ⟨_, rfl⟩
    have hpp := (parseParams_tokens toks w suffix q hwf hsuf hnt2).trans (by rw [hsr])
    rw [hpp]
    show some (searchTail (Node.mk (slash :: (lit0r ++ renderPat toks w))
        (slash :: (lit0r ++ renderPat toks w))
        (decide (countParams (slash :: (lit0r ++ renderPat toks w)) ≠ 0)) true
        (some h) []) (slash :: (lit0r ++ renderPath toks w suffix))
        (some (c1Bound q toks w suffix))) = _
    rw [searchTail, if_neg (by
      rintro ⟨ha, _⟩
      exact ha (decide_eq_true hcp))]
    rfl


theorem c1_amended_single_pattern_witness :
    search (Node.mk [] [] false false none
      [(47, Node.mk [47, 97, 58, 120, 47, 98, 42, 119] [47, 97, 58, 120, 47, 98, 42, 119]
        (decide (countParams [47, 97, 58, 120, 47, 98, 42, 119] ≠ 0)) true (some 5) [])])
      [47, 97, 118, 118, 47, 98, 47, 99] (some emptyReq) =
      some (some 5, true,
        some ⟨[([119], [47, 47, 99]), ([120], [118, 118])],
          [47, 97, 58, 120, 47, 98, 42, 119]⟩) :=
  c1_amended_single_pattern emptyReq
    (by decide : hasMarker [97] = false)
    (by decide : wfToks [([120], [118, 118], [47, 98])] (some [119]) = true)
    (by decide : (some [119] : Option (List Nat)).isSome = true →
      ([47, 99] : List Nat) = [] ∨ ¬ ([47, 99] : List Nat).headD 0 = star)
    (show insert emptyNode
        (slash :: ([97] ++ renderPat [([120], [118, 118], [47, 98])] (some [119])))
        (some 5) = .ok (Node.mk [] [] false false none
      [(47, Node.mk [47, 97, 58, 120, 47, 98, 42, 119] [47, 97, 58, 120, 47, 98, 42, 119]
        (decide (countParams [47, 97, 58, 120, 47, 98, 42, 119] ≠ 0)) true (some 5) [])])
      from rfl)

/-- Claim C4 (amended): for a request whose path does not match, whose
method is not CONNECT and whose path is not the root `/`, with at least one
transform enabled, when re-running the search on the transformed path
(structural cleaning, then trailing-slash removal, then lower-casing, as
enabled) succeeds, the mux responds with a redirect to the transformed path
whose status is 301 exactly for GET and 308 for every other method — HEAD
included, against the original claim's wording. -/
theorem c4_amended_redirect {m : MuxM} {cleanPath : List Nat → List Nat}
    {method : String} {urlPath : List Nat} {q : Req} {root : Node}
    {v1 : Option Nat} {r1 : Option Req} {v2 : Option Nat} {r2 : Option Req}
    (hroot : lookupTree m.trees method = some root)
    (hfail : search root urlPath (some q) = some (v1, false, r1))
    (hmeth : method ≠ "CONNECT") (hpath : urlPath ≠ [slash])
    (hflag : (m.redirectCleanPath || m.redirectTrailingSlash || m.routeCaseInsensitive) = true)
    (hre : search root (redirectPath m cleanPath urlPath) r1 = some (v2, true, r2)) :
    serveOutcome m cleanPath method urlPath q =
      .redirect (redirectPath m cleanPath urlPath) (redirectCode method) ∧
    (redirectCode method = 301 ↔ method = "GET") ∧
    (redirectCode method = 308 ↔ method ≠ "GET") := by
  refine ⟨?_, ?_, ?_⟩
  · rw [serveOutcome, hroot]
    show (match search root urlPath (some q) with
      | none => Outcome.searchPanic
      | some (v, true, _) => Outcome.dispatch v
      | some (_, false, r1) => attemptRedirect m cleanPath root method urlPath r1) = _
    rw [hfail]
    show attemptRedirect m cleanPath root method urlPath r1 = _
    rw [attemptRedirect, if_pos ⟨hmeth, hpath⟩, if_pos hflag]
    rw [hre]
  · rw [redirectCode]
    by_cases hg : method = "GET"
    · rw [if_pos hg]
      simp [hg]
    · rw [if_neg hg]
      simp [hg]
  · rw [redirectCode]
    by_cases hg : method = "GET"
    · rw [if_pos hg]
      simp [hg]
    · rw [if_neg hg]
      simp [hg]

theorem c4_amended_redirect_witness :
    serveOutcome (⟨[("HEAD", insOk (insert emptyNode pRedirect (some 1)))],
      false, true, false, false⟩ : MuxM) id "HEAD" pRedirectSlash emptyReq =
      .redirect (redirectPath (⟨[("HEAD", insOk (insert emptyNode pRedirect (some 1)))],
      false, true, false, false⟩ : MuxM) id pRedirectSlash) (redirectCode "HEAD") ∧
    (redirectCode "HEAD" = 301 ↔ "HEAD" = "GET") ∧
    (redirectCode "HEAD" = 308 ↔ "HEAD" ≠ "GET") :=
  c4_amended_redirect
    (show lookupTree ((⟨[("HEAD", insOk (insert emptyNode pRedirect (some 1)))],
      false, true, false, false⟩ : MuxM)).trees "HEAD" =
      some (insOk (insert emptyNode pRedirect (some 1))) from rfl)
    (show search (insOk (insert emptyNode pRedirect (some 1))) pRedirectSlash
      (some emptyReq) = some (some 1, false, some emptyReq) from rfl)
    (by decide)
    (by decide)
    (show (((⟨[("HEAD", insOk (insert emptyNode pRedirect (some 1)))],
      false, true, false, false⟩ : MuxM)).redirectCleanPath || ((⟨[("HEAD", insOk (insert emptyNode pRedirect (some 1)))],
      false, true, false, false⟩ : MuxM)).redirectTrailingSlash ||
      ((⟨[("HEAD", insOk (insert emptyNode pRedirect (some 1)))],
      false, true, false, false⟩ : MuxM)).routeCaseInsensitive) = true from rfl)
    (show search (insOk (insert emptyNode pRedirect (some 1)))
      (redirectPath (⟨[("HEAD", insOk (insert emptyNode pRedirect (some 1)))],
      false, true, false, false⟩ : MuxM) id pRedirectSlash) (some emptyReq) =
      some (some 1, true, some ⟨[], pRedirect⟩) from rfl)

end Roxi
